import Mathlib

/-
  Verification of the netjsonmon capture pipeline.

  Shallow embedding of the core pipeline components (redact.ts, the
  normalize module, features.ts, store.ts, monitor.ts, score.ts,
  summary.ts) as executable Lean definitions, with theorems settling the
  behavioural claims about redaction, URL normalization, feature
  extraction, the content-addressed body store, deduplication,
  aggregation and scoring.

  Modelling conventions:
  - JavaScript strings are Lean String; where character-level reasoning
    is needed (URL parsing, splitting and joining), the core functions
    work on List Char and are wrapped at the String boundary.
  - Byte buffers (Node Buffer) are List Nat with every entry < 256.
  - JavaScript numbers that claims reason about via ordering and exact
    arithmetic are modelled as Rat (scores, averages); sizes and counts
    are Nat.
  - JSON.parse is a deterministic platform builtin; definitions that
    invoke it take an explicit jsonParse function as an argument and
    theorems quantify over it.  Concrete evaluations instantiate it with
    a stub that agrees with JSON.parse on the buffers involved.
  - Wall-clock timeouts (the 100 ms soft budget of feature extraction)
    and identity-based cycle detection are not representable on
    tree-structured values: isTimedOut is modelled as always false and
    the visited set as never hit, which is exact for the terminating,
    acyclic inputs the claims quantify over.
-/

namespace NetJsonMon

/-! ## Byte and word helpers for SHA-256 (Node crypto createHash sha256) -/

/-- 2^32, the word modulus of SHA-256. -/
def w32 : Nat := 4294967296

/-- Right-rotate a 32-bit word by k bits. -/
def rotr (k n : Nat) : Nat := ((n >>> k) ||| (n <<< (32 - k))) % w32

/-- 32-bit addition. -/
def add32 (a b : Nat) : Nat := (a + b) % w32

def bigS0 (n : Nat) : Nat := (rotr 2 n) ^^^ (rotr 13 n) ^^^ (rotr 22 n)
def bigS1 (n : Nat) : Nat := (rotr 6 n) ^^^ (rotr 11 n) ^^^ (rotr 25 n)
def smallS0 (n : Nat) : Nat := (rotr 7 n) ^^^ (rotr 18 n) ^^^ (n >>> 3)
def smallS1 (n : Nat) : Nat := (rotr 17 n) ^^^ (rotr 19 n) ^^^ (n >>> 10)

/-- SHA-256 round constants. -/
def shaK : List Nat :=
  [1116352408, 1899447441, 3049323471, 3921009573, 961987163, 1508970993,
   2453635748, 2870763221, 3624381080, 310598401, 607225278, 1426881987,
   1925078388, 2162078206, 2614888103, 3248222580, 3835390401, 4022224774,
   264347078, 604807628, 770255983, 1249150122, 1555081692, 1996064986,
   2554220882, 2821834349, 2952996808, 3210313671, 3336571891, 3584528711,
   113926993, 338241895, 666307205, 773529912, 1294757372, 1396182291,
   1695183700, 1986661051, 2177026350, 2456956037, 2730485921, 2820302411,
   3259730800, 3345764771, 3516065817, 3600352804, 4094571909, 275423344,
   430227734, 506948616, 659060556, 883997877, 958139571, 1322822218,
   1537002063, 1747873779, 1955562222, 2024104815, 2227730452, 2361852424,
   2428436474, 2756734187, 3204031479, 3329325298]

/-- Big-endian byte expansion of a number into k bytes. -/
def toBytesBE (k n : Nat) : List Nat :=
  (List.range k).map (fun i => (n >>> (8 * (k - 1 - i))) % 256)

/-- SHA-256 message padding: append 0x80, zero bytes, then the bit length
as a 64-bit big-endian integer, so the total length is a multiple of 64. -/
def shaPad (msg : List Nat) : List Nat :=
  let l := msg.length
  let k := (119 - l % 64) % 64
  msg ++ 0x80 :: List.replicate k 0 ++ toBytesBE 8 (8 * l)

/-- Combine 4 bytes into a big-endian 32-bit word. -/
def word4 : List Nat → Nat
  | b0 :: b1 :: b2 :: b3 :: _ => ((b0 * 256 + b1) * 256 + b2) * 256 + b3
  | _ => 0

/-- Split a padded message into big-endian 32-bit words (fuel-structural
so that the kernel can evaluate it; the fuel always suffices). -/
def toWordsGo : Nat → List Nat → List Nat
  | _, [] => []
  | 0, _ => []
  | fuel + 1, l => word4 (l.take 4) :: toWordsGo fuel (l.drop 4)

def toWords (l : List Nat) : List Nat := toWordsGo l.length l

/-- One step of the message-schedule extension. -/
def nextWord (w : List Nat) : Nat :=
  let i := w.length
  (w.getD (i - 16) 0 + smallS0 (w.getD (i - 15) 0) +
   w.getD (i - 7) 0 + smallS1 (w.getD (i - 2) 0)) % w32

/-- Extend 16 words to the 64-word message schedule. -/
def extendWords (w16 : List Nat) : List Nat :=
  (List.range 48).foldl (fun w _ => w ++ [nextWord w]) w16

/-- The eight working variables of the SHA-256 compression function. -/
structure Hash8 where
  a : Nat
  b : Nat
  c : Nat
  d : Nat
  e : Nat
  f : Nat
  g : Nat
  h : Nat

def shaH0 : Hash8 :=
  ⟨1779033703, 3144134277, 1013904242, 2773480762,
   1359893119, 2600822924, 528734635, 1541459225⟩

/-- One round of the SHA-256 compression function. -/
def shaRound (s : Hash8) (kw : Nat × Nat) : Hash8 :=
  let ch := (s.e &&& s.f) ^^^ ((s.e ^^^ (w32 - 1)) &&& s.g)
  let maj := (s.a &&& s.b) ^^^ (s.a &&& s.c) ^^^ (s.b &&& s.c)
  let t1 := (s.h + bigS1 s.e + ch + kw.1 + kw.2) % w32
  let t2 := (bigS0 s.a + maj) % w32
  ⟨(t1 + t2) % w32, s.a, s.b, s.c, (s.d + t1) % w32, s.e, s.f, s.g⟩

/-- Process a single 64-byte chunk. -/
def shaChunk (st : Hash8) (chunk : List Nat) : Hash8 :=
  let ws := extendWords (toWords chunk)
  let s := (shaK.zip ws).foldl shaRound st
  ⟨add32 st.a s.a, add32 st.b s.b, add32 st.c s.c, add32 st.d s.d,
   add32 st.e s.e, add32 st.f s.f, add32 st.g s.g, add32 st.h s.h⟩

/-- Split a list into 64-byte chunks (fuel-structural; the fuel always
suffices). -/
def chunksGo : Nat → List Nat → List (List Nat)
  | _, [] => []
  | 0, _ => []
  | fuel + 1, l => l.take 64 :: chunksGo fuel (l.drop 64)

def chunks64 (l : List Nat) : List (List Nat) := chunksGo l.length l

def hexDigit (n : Nat) : Char :=
  if n < 10 then Char.ofNat (48 + n) else Char.ofNat (87 + n)

/-- Lowercase hex rendering of a 32-bit word. -/
def wordHex (n : Nat) : List Char :=
  (List.range 8).map (fun i => hexDigit ((n >>> (28 - 4 * i)) % 16))

/-- SHA-256 of a byte sequence as a lowercase hex string: the model of
Node crypto createHash(sha256).update(buffer).digest(hex), which is what
CaptureStore.computeHash and the schemaHash of features.ts invoke. -/
def sha256hex (msg : List Nat) : String :=
  let fin := (chunks64 (shaPad msg)).foldl shaChunk shaH0
  ⟨wordHex fin.a ++ wordHex fin.b ++ wordHex fin.c ++ wordHex fin.d ++
   wordHex fin.e ++ wordHex fin.f ++ wordHex fin.g ++ wordHex fin.h⟩

/-- UTF-8 bytes of a string (all claims use ASCII payloads, where UTF-8
agrees with the code points). -/
def utf8Bytes (s : String) : List Nat := s.data.map (fun c => c.toNat)

end NetJsonMon

namespace NetJsonMon

/-! ## Character-list splitting and joining

The URL machinery of the code (String.prototype.split, URLSearchParams,
the WHATWG URL components) is modelled on List Char with the splitting
and joining functions below. -/

/-- Split at every occurrence of the separator; n separators yield n+1
pieces, like the JavaScript split with a one-character separator. -/
def splitChar (sep : Char) : List Char → List (List Char)
  | [] => [[]]
  | c :: rest =>
    match splitChar sep rest with
    | [] => [[c]]
    | p :: ps => if c = sep then [] :: p :: ps else (c :: p) :: ps

/-- Join pieces with a separator (Array.prototype.join with one char). -/
def joinChar (sep : Char) : List (List Char) → List Char
  | [] => []
  | [p] => p
  | p :: ps => p ++ sep :: joinChar sep ps

/-- Split at the first occurrence of the separator, reporting whether the
separator occurred. -/
def splitFirst (sep : Char) : List Char → List Char × Option (List Char)
  | [] => ([], none)
  | c :: rest =>
    if c = sep then ([], some rest)
    else
      match splitFirst sep rest with
      | (before, after) => (c :: before, after)

theorem splitChar_ne_nil (sep : Char) (l : List Char) : splitChar sep l ≠ [] := by
  cases l with
  | nil => simp [splitChar]
  | cons c rest =>
    simp only [splitChar]
    rcases splitChar sep rest with _ | ⟨p, ps⟩
    · simp
    · by_cases h : c = sep <;> simp [h]

theorem splitChar_of_not_mem {sep : Char} {l : List Char} (h : sep ∉ l) :
    splitChar sep l = [l] := by
  induction l with
  | nil => rfl
  | cons c rest ih =>
    simp only [List.mem_cons, not_or] at h
    simp only [splitChar, ih h.2]
    simp [Ne.symm h.1]

theorem splitChar_append_sep {sep : Char} {p rest : List Char} (h : sep ∉ p) :
    splitChar sep (p ++ sep :: rest) = p :: splitChar sep rest := by
  induction p with
  | nil =>
    simp only [List.nil_append, splitChar]
    rcases hr : splitChar sep rest with _ | ⟨q, qs⟩
    · exact absurd hr (splitChar_ne_nil sep rest)
    · simp
  | cons c cs ih =>
    simp only [List.mem_cons, not_or] at h
    have hrw := ih h.2
    simp only [List.cons_append, splitChar, List.append_eq]
    rw [hrw]
    simp [Ne.symm h.1]

theorem splitChar_joinChar {sep : Char} :
    ∀ {pieces : List (List Char)}, pieces ≠ [] →
    (∀ p ∈ pieces, sep ∉ p) →
    splitChar sep (joinChar sep pieces) = pieces := by
  intro pieces
  induction pieces with
  | nil => intro h; exact absurd rfl h
  | cons p ps ih =>
    intro _ hmem
    cases ps with
    | nil =>
      simpa [joinChar] using splitChar_of_not_mem (hmem p (by simp))
    | cons q qs =>
      have hjoin : joinChar sep (p :: q :: qs) = p ++ sep :: joinChar sep (q :: qs) := rfl
      rw [hjoin, splitChar_append_sep (hmem p (by simp))]
      rw [ih (by simp) (fun r hr => hmem r (List.mem_cons_of_mem _ hr))]

theorem splitFirst_of_not_mem {sep : Char} {l : List Char} (h : sep ∉ l) :
    splitFirst sep l = (l, none) := by
  induction l with
  | nil => rfl
  | cons c rest ih =>
    simp only [List.mem_cons, not_or] at h
    simp [splitFirst, Ne.symm h.1, ih h.2]

theorem splitFirst_append_sep {sep : Char} {p rest : List Char} (h : sep ∉ p) :
    splitFirst sep (p ++ sep :: rest) = (p, some rest) := by
  induction p with
  | nil => simp [splitFirst]
  | cons c cs ih =>
    simp only [List.mem_cons, not_or] at h
    simp [splitFirst, Ne.symm h.1, ih h.2]

/-! ## Boolean insertion sort

Models Array.prototype.sort with a comparator: the comparator le a b
holds when the comparator keeps a before b (compare(a,b) less or equal 0).
Modern JavaScript sort is stable; insertion sort is the reference stable
sort and agrees with any comparison sort on the orderings the claims
examine. -/

def orderedInsertB (le : α → α → Bool) (a : α) : List α → List α
  | [] => [a]
  | b :: l => if le a b then a :: b :: l else b :: orderedInsertB le a l

def insertionSortB (le : α → α → Bool) : List α → List α
  | [] => []
  | b :: l => orderedInsertB le b (insertionSortB le l)

theorem mem_orderedInsertB (le : α → α → Bool) (a x : α) (l : List α) :
    x ∈ orderedInsertB le a l ↔ x = a ∨ x ∈ l := by
  induction l with
  | nil => simp [orderedInsertB]
  | cons b t ih =>
    simp only [orderedInsertB]
    split
    · simp [or_comm, or_assoc, or_left_comm]
    · simp [ih]
      tauto

theorem mem_insertionSortB (le : α → α → Bool) (x : α) (l : List α) :
    x ∈ insertionSortB le l ↔ x ∈ l := by
  induction l with
  | nil => simp [insertionSortB]
  | cons b t ih =>
    simp [insertionSortB, mem_orderedInsertB, ih]

theorem chain'_orderedInsertB (le : α → α → Bool)
    (total : ∀ a b, le a b = true ∨ le b a = true) (a : α) :
    ∀ {l : List α}, List.Chain' (fun x y => le x y = true) l →
    List.Chain' (fun x y => le x y = true) (orderedInsertB le a l) := by
  intro l
  induction l with
  | nil => intro _; simp [orderedInsertB]
  | cons b t ih =>
    intro hc
    rw [List.chain'_cons'] at hc
    simp only [orderedInsertB]
    by_cases h : le a b = true
    · rw [if_pos h]
      exact List.chain'_cons'.mpr ⟨by simpa using h, List.chain'_cons'.mpr hc⟩
    · rw [if_neg h]
      have hba : le b a = true := (total a b).resolve_left h
      have htail := ih hc.2
      rw [List.chain'_cons']
      refine ⟨?_, htail⟩
      intro y hy
      cases t with
      | nil =>
        simp only [orderedInsertB, List.head?_cons, Option.mem_def, Option.some.injEq] at hy
        subst hy; exact hba
      | cons c t' =>
        simp only [orderedInsertB] at hy
        by_cases hac : le a c = true
        · rw [if_pos hac] at hy
          simp only [List.head?_cons, Option.mem_def, Option.some.injEq] at hy
          subst hy; exact hba
        · rw [if_neg hac] at hy
          simp only [List.head?_cons, Option.mem_def, Option.some.injEq] at hy
          subst hy
          exact hc.1 c (by simp)

theorem chain'_insertionSortB (le : α → α → Bool)
    (total : ∀ a b, le a b = true ∨ le b a = true) (l : List α) :
    List.Chain' (fun x y => le x y = true) (insertionSortB le l) := by
  induction l with
  | nil => simp [insertionSortB]
  | cons b t ih => exact chain'_orderedInsertB le total b ih

theorem orderedInsertB_of_le {le : α → α → Bool} {a b : α} {l : List α}
    (h : le a b = true) : orderedInsertB le a (b :: l) = a :: b :: l := by
  simp [orderedInsertB, h]

theorem insertionSortB_of_chain' (le : α → α → Bool) :
    ∀ {l : List α}, List.Chain' (fun x y => le x y = true) l →
    insertionSortB le l = l := by
  intro l
  induction l with
  | nil => intro _; rfl
  | cons b t ih =>
    intro hc
    rw [List.chain'_cons'] at hc
    rw [insertionSortB, ih hc.2]
    cases t with
    | nil => rfl
    | cons c t' => exact orderedInsertB_of_le (hc.1 c (by simp))

end NetJsonMon

namespace NetJsonMon

/-! ## URL model

Model of the WHATWG URL parser as used by the code: the code only reads
origin, pathname, searchParams, search and writes hash and search.  The
model covers URLs of the shape scheme://host/path?query#fragment and
treats anything else as a parse failure (new URL throwing).  Percent
encoding and decoding are not modelled: components are kept verbatim. -/

structure UrlModel where
  scheme : List Char
  host : List Char
  pathname : List Char
  params : List (List Char × List Char)
  hash : List Char
  deriving Repr, DecidableEq

/-- Allowed characters of a URL scheme. -/
def schemeChar (c : Char) : Bool :=
  c.isAlpha || c.isDigit || c = '+' || c = '-' || c = '.'

def schemeOk (s : List Char) : Bool :=
  !s.isEmpty && s.all schemeChar

/-- URLSearchParams parsing of a query string: split on the ampersand,
drop empty pieces, split each piece at the first equals sign. -/
def parseParams (q : List Char) : List (List Char × List Char) :=
  if q.isEmpty then []
  else
    ((splitChar '&' q).filter (fun p => !p.isEmpty)).map (fun piece =>
      match splitFirst '=' piece with
      | (k, some v) => (k, v)
      | (k, none) => (k, []))

/-- URLSearchParams serialization: key=value joined by ampersands. -/
def serializeParams (params : List (List Char × List Char)) : List Char :=
  joinChar '&' (params.map (fun kv => kv.1 ++ '=' :: kv.2))

/-- The search component (with leading question mark when nonempty). -/
def searchOf (params : List (List Char × List Char)) : List Char :=
  if params.isEmpty then [] else '?' :: serializeParams params

/-- The origin component scheme://host. -/
def originOf (u : UrlModel) : List Char :=
  u.scheme ++ ':' :: '/' :: '/' :: u.host

/-- Model of new URL(s): split off fragment, then query, then require
scheme://host with a nonempty host; the path defaults to a single slash
as for special schemes. -/
def parseUrl (s : List Char) : Option UrlModel :=
  let bh := splitFirst '#' s
  let hash := bh.2.getD []
  let bq := splitFirst '?' bh.1
  let query := bq.2.getD []
  match splitFirst ':' bq.1 with
  | (scheme, some rest) =>
    if schemeOk scheme then
      match rest with
      | '/' :: '/' :: hostAndPath =>
        let hp := splitFirst '/' hostAndPath
        if hp.1.isEmpty then none
        else
          let pathname := match hp.2 with
            | some p => '/' :: p
            | none => ['/']
          some ⟨scheme, hp.1, pathname, parseParams query, hash⟩
      | _ => none
    else none
  | (_, none) => none

/-- Model of URL.prototype.toString for the components the code touches. -/
def serializeUrl (u : UrlModel) : List Char :=
  originOf u ++ u.pathname ++ searchOf u.params ++
    (if u.hash.isEmpty then [] else '#' :: u.hash)

/-! ## redact.ts -/

/-- Lowercasing and uppercasing on the character level (the model of
String.prototype.toLowerCase and toUpperCase for the ASCII data all
claims use). -/
def toLowerStr (s : String) : String := String.mk (s.data.map Char.toLower)

def toUpperStr (s : String) : String := String.mk (s.data.map Char.toUpper)

def REDACTED : String := "[REDACTED]"

def SENSITIVE_HEADERS : List String :=
  ["authorization", "cookie", "set-cookie", "x-api-key", "x-auth-token",
   "api-key"]

def SENSITIVE_URL_PARAMS : List String :=
  ["token", "key", "auth", "session", "sig", "signature", "apikey",
   "api_key"]

/-- redactHeaders: case-insensitive match of the header name against the
sensitive set; matching values replaced, keys kept in original case. -/
def redactHeaders (headers : List (String × String)) : List (String × String) :=
  headers.map (fun kv =>
    if SENSITIVE_HEADERS.contains (toLowerStr kv.1) then (kv.1, REDACTED)
    else kv)

def sensitiveUrlParam (k : List Char) : Bool :=
  (SENSITIVE_URL_PARAMS.map String.data).contains (k.map Char.toLower)

/-- redactUrl on the character level: parse, check whether any query
parameter name is sensitive (the modified flag of the code); when none
is, the original string is returned as is.  When one is, the sensitive
values are replaced and the URL re-serialized.  (URLSearchParams.set
removal of later duplicate keys is not modelled; no claim depends on the
re-serialized branch.) -/
def redactUrlCore (url : List Char) : List Char :=
  match parseUrl url with
  | none => url
  | some u =>
    let modified := u.params.any (fun kv => sensitiveUrlParam kv.1)
    if modified then
      serializeUrl { u with
        params := u.params.map (fun kv =>
          if sensitiveUrlParam kv.1 then (kv.1, REDACTED.data) else kv) }
    else url

def redactUrl (url : String) : String := ⟨redactUrlCore url.data⟩

/-- redactError: truncate the message to 200 characters.  (The [PATH]
replacement regex of the source is elided: no claim inspects the
contents of parseError.) -/
def redactError (msg : String) : String := ⟨msg.data.take 200⟩

/-! ## The normalize module (URL normalization and endpoint keys) -/

/-- Path segments never replaced by the id token. -/
def PRESERVE_SEGMENTS : List String :=
  ["api", "v1", "v2", "v3", "v4",
   "search", "query", "list", "create", "update", "delete",
   "users", "posts", "items", "products", "orders", "comments",
   "auth", "login", "logout", "register",
   "admin", "public", "private"]

def isHexChar (c : Char) : Bool :=
  c.isDigit || ('a' ≤ c && c ≤ 'f') || ('A' ≤ c && c ≤ 'F')

def idAlnumChar (c : Char) : Bool :=
  c.isAlpha || c.isDigit || c = '_' || c = '-'

/-- Pure numeric segment. -/
def isDigitsSeg (s : List Char) : Bool := !s.isEmpty && s.all Char.isDigit

/-- Canonical UUID: hex groups of lengths 8-4-4-4-12 joined by dashes,
case-insensitive. -/
def isUuidSeg (s : List Char) : Bool :=
  match splitChar '-' s with
  | [a, b, c, d, e] =>
    a.length = 8 && b.length = 4 && c.length = 4 && d.length = 4 &&
    e.length = 12 && (a ++ b ++ c ++ d ++ e).all isHexChar
  | _ => false

/-- Long hex (32 or more hex characters, case-insensitive). -/
def isLongHexSeg (s : List Char) : Bool :=
  decide (32 ≤ s.length) && s.all isHexChar

/-- Long alphanumeric (20 or more word characters or dashes). -/
def isLongAlnumSeg (s : List Char) : Bool :=
  decide (20 ≤ s.length) && s.all idAlnumChar

/-- isIdSegment of the normalize module. -/
def isIdSegment (s : List Char) : Bool :=
  if s.isEmpty ||
     (PRESERVE_SEGMENTS.map String.data).contains (s.map Char.toLower) then
    false
  else
    isDigitsSeg s || isUuidSeg s || isLongHexSeg s || isLongAlnumSeg s

/-- The replacement token for id-like segments. -/
def idToken : List Char := [':', 'i', 'd']

/-- normalizePathSegments: split on slash, replace id-like segments,
join with slash. -/
def normalizePathSegmentsCore (path : List Char) : List Char :=
  joinChar '/' ((splitChar '/' path).map (fun seg =>
    if isIdSegment seg then idToken else seg))

/-- localeCompare ordering on parameter keys, modelled as lexicographic
code-point comparison (any fixed total order gives the same sortedness
and idempotence properties). -/
def lexLe : List Char → List Char → Bool
  | [], _ => true
  | _ :: _, [] => false
  | a :: as, b :: bs => if a < b then true else if b < a then false else lexLe as bs

theorem lexLe_total : ∀ a b : List Char, lexLe a b = true ∨ lexLe b a = true := by
  intro a
  induction a with
  | nil => intro b; left; rfl
  | cons c cs ih =>
    intro b
    cases b with
    | nil => right; rfl
    | cons d ds =>
      by_cases h1 : c < d
      · left; simp [lexLe, h1]
      · by_cases h2 : d < c
        · right; simp [lexLe, h2, h1]
        · rcases ih ds with h | h
          · left; simp [lexLe, h1, h2, h]
          · right; simp [lexLe, h1, h2, h]

def paramLe (p q : List Char × List Char) : Bool := lexLe p.1 q.1

/-- The result record of normalizeUrl. -/
structure Normalized where
  normalizedUrl : String
  normalizedPath : String
  deriving Repr, DecidableEq

/-- normalizeUrl on the character level: parse; strip the fragment; sort
the query parameters by name; replace id-like path segments; rebuild
origin + normalizedPath + search.  On parse failure both fields are the
input. -/
def normalizeUrlCore (s : List Char) : List Char × List Char :=
  match parseUrl s with
  | none => (s, s)
  | some u =>
    let sorted := insertionSortB paramLe u.params
    let npath := normalizePathSegmentsCore u.pathname
    (originOf u ++ npath ++ searchOf sorted, npath)

def normalizeUrl (s : String) : Normalized :=
  let r := normalizeUrlCore s.data
  ⟨⟨r.1⟩, ⟨r.2⟩⟩

/-- endpointKey of the normalize module: method uppercased, a space, the
normalized path. -/
def endpointKey (method : String) (normalizedPath : String) : String :=
  toUpperStr method ++ " " ++ normalizedPath

end NetJsonMon

namespace NetJsonMon

/-! ## JSON values

Parsed JSON payloads as a tagged value variant; JavaScript object key
order is insertion order, modelled by the entry list order. -/

inductive Json where
  | null : Json
  | bool (b : Bool) : Json
  | num (n : Int) : Json
  | str (s : String) : Json
  | arr (elems : List Json) : Json
  | obj (entries : List (String × Json)) : Json

/-- typeof v === object && v !== null is false exactly on these. -/
def isLeafValue : Json → Bool
  | .arr _ => false
  | .obj _ => false
  | _ => true

/-- Sensitive object keys of redactJson (exact, case-sensitive). -/
def SENSITIVE_JSON_KEYS : List String :=
  ["password", "token", "secret", "email", "apiKey", "api_key",
   "accessToken", "access_token", "refreshToken", "refresh_token"]

/-- redactJson: primitives as is, arrays mapped, object values replaced
for sensitive keys, containers recursed into. -/
def redactJson : Json → Json
  | .arr l => .arr (l.attach.map (fun x => redactJson x.1))
  | .obj entries =>
    .obj (entries.attach.map (fun kv =>
      if SENSITIVE_JSON_KEYS.contains kv.1.1 then (kv.1.1, Json.str REDACTED)
      else if isLeafValue kv.1.2 then kv.1
      else (kv.1.1, redactJson kv.1.2)))
  | .null => .null
  | .bool b => .bool b
  | .num n => .num n
  | .str s => .str s
  termination_by j => sizeOf j
  decreasing_by
  · have h1 := List.sizeOf_lt_of_mem x.2
    simp only [Json.arr.sizeOf_spec]
    omega
  · have h1 := List.sizeOf_lt_of_mem kv.2
    have h2 : sizeOf kv.1.2 < sizeOf kv.1 := by
      cases kv.1 with
      | mk a b => simp only [Prod.mk.sizeOf_spec]; omega
    simp only [Json.obj.sizeOf_spec]
    omega

/-! ## features.ts -/

structure Features where
  isArray : Bool
  isObject : Bool
  isPrimitive : Bool
  arrayLength : Option Nat
  numKeys : Option Nat
  topLevelKeys : Option (List String)
  depthEstimate : Nat
  hasId : Bool
  hasItems : Bool
  hasResults : Bool
  hasData : Bool
  samplePaths : List String
  schemaHash : String
  deriving Repr, DecidableEq

def emptyFeatures : Features :=
  ⟨false, false, false, none, none, none, 0, false, false, false, false,
   [], ""⟩

/-- estimateDepth: bounded by the depth cap (recursion on the cap, which
the source decrements on every recursive call); arrays sample the first
5 elements, objects the first 10 keys.  The timeout guard and the
identity-based visited set are never hit on tree values. -/
def estimateDepth : Nat → Json → Nat
  | 0, _ => 0
  | d + 1, j =>
    match j with
    | .arr l => 1 + ((l.take 5).map (fun x => estimateDepth d x)).foldl max 0
    | .obj l => 1 + ((l.take 10).map (fun kv => estimateDepth d kv.2)).foldl max 0
    | _ => 0

/-- The array index path component of extractPaths. -/
def arrayPathOf (pre : String) : String :=
  if pre = "" then "[0]" else pre ++ "[0]"

/-- The dotted key path component of extractPaths. -/
def keyPathOf (pre k : String) : String :=
  if pre = "" then k else pre ++ "." ++ k

/-- When a container produced no child paths it is itself recorded as a
leaf path. -/
def childPathsPush (child : List String) (newPath : String) : List String :=
  if child.isEmpty then [newPath] else child

/-- The key loop of extractPaths over the first 10 keys of an object:
budget is maxPaths minus the paths collected so far; recur is
extractPaths at depth maxDepth - 1. -/
def extractPathsObjLoop (recur : Json → Nat → String → List String) :
    List (String × Json) → Nat → String → List String
  | [], _, _ => []
  | (k, v) :: rest, budget, pre =>
    if budget = 0 then []
    else
      let newPath := keyPathOf pre k
      if isLeafValue v then
        newPath :: extractPathsObjLoop recur rest (budget - 1) pre
      else
        let pushed := childPathsPush (recur v budget newPath) newPath
        pushed ++ extractPathsObjLoop recur rest (budget - pushed.length) pre

/-- extractPaths: depth-first sample paths, bounded by depth and count;
arrays descend only into element 0, objects into their first 10 keys. -/
def extractPaths : Nat → Json → Nat → String → List String
  | 0, _, _, _ => []
  | d + 1, j, budget, pre =>
    if budget = 0 then []
    else
      match j with
      | .arr [] => []
      | .arr (x :: _) => extractPaths d x budget (arrayPathOf pre)
      | .obj entries =>
        extractPathsObjLoop (fun v b p => extractPaths d v b p)
          (entries.take 10) budget pre
      | _ => []

def MAX_SAMPLE_PATHS_DEFAULT : Nat := 100
def MAX_TOP_LEVEL_KEYS : Nat := 20

/-- String comparison used by the default Array.prototype.sort on keys. -/
def strLe (a b : String) : Bool := lexLe a.data b.data

/-- extractFeatures of features.ts.  The maxKeys argument is carried
exactly as in the source signature. -/
def extractFeatures (body : Json) (maxDepth : Nat) (maxKeys : Nat) : Features :=
  match body with
  | .null => { emptyFeatures with isPrimitive := true }
  | .bool _ => { emptyFeatures with isPrimitive := true }
  | .num _ => { emptyFeatures with isPrimitive := true }
  | .str _ => { emptyFeatures with isPrimitive := true }
  | .arr l =>
    let base := { emptyFeatures with
      isArray := true, arrayLength := some l.length }
    match l with
    | [] => base
    | x :: _ =>
      if isLeafValue x then base
      else
        { base with
          depthEstimate := 1 + estimateDepth (maxDepth - 1) x,
          samplePaths := extractPaths maxDepth (.arr l) MAX_SAMPLE_PATHS_DEFAULT "" }
  | .obj entries =>
    let keys := entries.map Prod.fst
    let sortedKeys := insertionSortB strLe keys
    let keySet := keys.map toLowerStr
    { isArray := false, isObject := true, isPrimitive := false,
      arrayLength := none,
      numKeys := some keys.length,
      topLevelKeys := some (sortedKeys.take MAX_TOP_LEVEL_KEYS),
      depthEstimate := estimateDepth maxDepth (.obj entries),
      hasId := keySet.contains "id" || keySet.contains "_id" ||
        keySet.contains "uuid",
      hasItems := keySet.contains "items" || keySet.contains "results" ||
        keySet.contains "data" || keySet.contains "list",
      hasResults := keySet.contains "results",
      hasData := keySet.contains "data",
      samplePaths := extractPaths maxDepth (.obj entries) MAX_SAMPLE_PATHS_DEFAULT "",
      schemaHash := sha256hex (utf8Bytes (String.intercalate "|" sortedKeys)) }

/-- Truncation to the prefixes estimateDepth examines down to the depth
cap: the first 5 array elements and the first 10 object keys at every
level the estimator can reach. -/
def depthTrunc : Nat → Json → Json
  | 0, j => j
  | d + 1, .arr l => .arr ((l.take 5).map (fun x => depthTrunc d x))
  | d + 1, .obj l => .obj ((l.take 10).map (fun kv => (kv.1, depthTrunc d kv.2)))
  | _, j => j

/-- Truncation to the prefixes extractPaths examines down to the depth
cap: element 0 of every array and the first 10 keys of every object. -/
def pathTrunc : Nat → Json → Json
  | 0, j => j
  | _ + 1, .arr [] => .arr []
  | d + 1, .arr (x :: _) => .arr [pathTrunc d x]
  | d + 1, .obj l => .obj ((l.take 10).map (fun kv => (kv.1, pathTrunc d kv.2)))
  | _, j => j

end NetJsonMon

namespace NetJsonMon

/-! ## types.ts and store.ts -/

inductive OmittedReason where
  | maxBodyBytes
  | unavailable
  | nonJson
  | parseError
  | filtered
  | emptyBody
  deriving Repr, DecidableEq

/-- A capture record as persisted to index.jsonl.  Optional fields of the
TypeScript interface are Option. -/
structure CaptureRecord where
  timestamp : String
  url : String
  status : Nat
  method : String
  requestHeaders : List (String × String)
  responseHeaders : List (String × String)
  contentType : String
  payloadSize : Nat
  bodyAvailable : Bool
  truncated : Bool
  omittedReason : Option OmittedReason
  jsonParseSuccess : Bool
  parseError : Option String
  normalizedUrl : Option String
  normalizedPath : Option String
  endpointKey : Option String
  features : Option Features
  bodyHash : String
  bodyPath : Option String
  inlineBody : Option Json

/-- The record fields handed to CaptureStore.storeCapture, mirroring
Omit of CaptureRecord over bodyHash, bodyPath, inlineBody. -/
structure RecordBase where
  timestamp : String
  url : String
  status : Nat
  method : String
  requestHeaders : List (String × String)
  responseHeaders : List (String × String)
  contentType : String
  payloadSize : Nat
  bodyAvailable : Bool
  truncated : Bool
  omittedReason : Option OmittedReason
  jsonParseSuccess : Bool
  parseError : Option String
  normalizedUrl : Option String
  normalizedPath : Option String
  endpointKey : Option String
  features : Option Features

def RecordBase.toRecord (r : RecordBase) (bodyHash : String)
    (bodyPath : Option String) (inlineBody : Option Json) : CaptureRecord :=
  ⟨r.timestamp, r.url, r.status, r.method, r.requestHeaders,
   r.responseHeaders, r.contentType, r.payloadSize, r.bodyAvailable,
   r.truncated, r.omittedReason, r.jsonParseSuccess, r.parseError,
   r.normalizedUrl, r.normalizedPath, r.endpointKey, r.features,
   bodyHash, bodyPath, inlineBody⟩

/-- The filesystem state the store touches inside one run directory.
File contents are the JSON values serialized into them: JSON.stringify
with two-space indentation is a deterministic builtin, so value equality
corresponds to byte equality of the files.  writeLog records every
successful full-file write in order (fs writeFile truncates and writes,
it never appends). -/
structure StoreState where
  files : List (String × Json)
  writeLog : List String
  index : List CaptureRecord

def emptyStore : StoreState := ⟨[], [], []⟩

/-- fs writeFile: replace the whole content at the path. -/
def writeFileModel (st : StoreState) (path : String) (content : Json) :
    StoreState :=
  { st with files := (path, content) :: st.files,
            writeLog := st.writeLog ++ [path] }

/-- The current content of a path (latest write wins). -/
def fileContent (st : StoreState) (path : String) : Option Json :=
  (st.files.find? (fun kv => kv.1 = path)).map Prod.snd

/-- CaptureStore.computeHash. -/
def computeHash (buffer : List Nat) : String := sha256hex buffer

/-- CaptureStore.storeCapture.  jsonParse models JSON.parse on the UTF-8
decoding of the buffer (none models a throw); writeFails models the
body-file write throwing. -/
def storeCapture (jsonParse : List Nat → Option Json)
    (inlineBodyBytes : Nat) (writeFails : Bool) (st : StoreState)
    (record : RecordBase) (bodyBuffer : Option (List Nat)) : StoreState :=
  let bodyHash := match bodyBuffer with
    | some b => computeHash b
    | none => ""
  let placed : Option String × Option Json × StoreState :=
    match bodyBuffer with
    | none => (none, none, st)
    | some b =>
      if record.jsonParseSuccess then
        if b.length ≤ inlineBodyBytes then
          match jsonParse b with
          | some parsed => (none, some (redactJson parsed), st)
          | none => (none, none, st)
        else
          let bodyPath := "bodies/" ++ bodyHash ++ ".json"
          match jsonParse b with
          | none => (none, none, st)
          | some parsed =>
            if writeFails then (none, none, st)
            else (some bodyPath, none,
                  writeFileModel st bodyPath (redactJson parsed))
      else (none, none, st)
  let finalRecord := record.toRecord bodyHash placed.1 placed.2.1
  let st1 := placed.2.2
  { st1 with index := st1.index ++ [finalRecord] }

/-! ## monitor.ts -/

def XHR_FETCH_TYPES : List String := ["xhr", "fetch"]

def JSON_CONTENT_TYPES : List String :=
  ["application/json", "application/ld+json", "application/hal+json",
   "application/vnd.api+json"]

def isPrefixB : List Char → List Char → Bool
  | [], _ => true
  | _ :: _, [] => false
  | a :: as, b :: bs => a = b && isPrefixB as bs

/-- Substring containment (String.prototype.includes). -/
def containsSub (hay needle : List Char) : Bool :=
  match hay with
  | [] => needle.isEmpty
  | _ :: rest => isPrefixB needle hay || containsSub rest needle

/-- isJsonContentType of monitor.ts: lowercase substring match against
the JSON content types; the empty string is falsy. -/
def isJsonContentType (contentType : String) : Bool :=
  if contentType = "" then false
  else JSON_CONTENT_TYPES.any (fun t =>
    containsSub (toLowerStr contentType).data t.data)

/-- Property access on a header object (Playwright allHeaders returns
lowercase names). -/
def headerGet (headers : List (String × String)) (k : String) :
    Option String :=
  (headers.find? (fun kv => kv.1 = k)).map Prod.snd

/-- The options of MonitorOptions that handleResponse consults.  The
include and exclude regexes are modelled by their test predicates. -/
structure MonitorOptions where
  maxCaptures : Nat
  maxBodyBytes : Nat
  inlineBodyBytes : Nat
  captureAllJson : Bool
  includeTest : Option (String → Bool)
  excludeTest : Option (String → Bool)

/-- One response event delivered to the handler.  body none models
response.body() throwing (opaque response); parseErrorMsg is the message
JSON.parse would throw on this body; writeFails models whether the
body-file write for this record would fail. -/
structure RespInput where
  timestamp : String
  url : String
  status : Nat
  method : String
  resourceType : String
  requestHeaders : List (String × String)
  responseHeaders : List (String × String)
  body : Option (List Nat)
  bodyErrorMsg : String
  parseErrorMsg : String
  writeFails : Bool

inductive HandleResult where
  | captured
  | duplicate
  | skipped
  deriving Repr, DecidableEq

/-- storeMetadataOnly of monitor.ts. -/
def storeMetadataOnly (jsonParse : List Nat → Option Json)
    (inlineBodyBytes : Nat) (st : StoreState) (r : RespInput)
    (reason : OmittedReason) : StoreState :=
  storeCapture jsonParse inlineBodyBytes false st
    { timestamp := r.timestamp
      url := redactUrl r.url
      status := r.status
      method := r.method
      requestHeaders := redactHeaders r.requestHeaders
      responseHeaders := redactHeaders r.responseHeaders
      contentType := (headerGet r.responseHeaders "content-type").getD ""
      payloadSize := 0
      bodyAvailable := false
      truncated := true
      omittedReason := some reason
      jsonParseSuccess := false
      parseError := none
      normalizedUrl := none
      normalizedPath := none
      endpointKey := none
      features := none } none

/-- The keep/drop decision of handleResponse: in captureAllJson mode
everything is kept; otherwise xhr and fetch resource types, with a
JSON-looking content type as override. -/
def shouldCaptureOf (opts : MonitorOptions) (resourceType contentType : String) : Bool :=
  if opts.captureAllJson then true
  else XHR_FETCH_TYPES.contains resourceType || isJsonContentType contentType

/-- The early content-length gate: a present, nonempty, numeric
content-length header that exceeds maxBodyBytes. -/
def contentLengthGate (opts : MonitorOptions)
    (responseHeaders : List (String × String)) : Bool :=
  match headerGet responseHeaders "content-length" with
  | some s =>
    if s = "" then false
    else
      match s.toNat? with
      | some size => decide (opts.maxBodyBytes < size)
      | none => false
  | none => false

/-- The normalization and feature extraction step, applied only on a
successful parse: redact the URL, normalize it, derive the endpoint key
and extract features with the default bounds. -/
def normFeatures (method url : String) (success : Bool)
    (parsedBody : Option Json) :
    Option String × Option String × Option String × Option Features :=
  match success, parsedBody with
  | true, some parsed =>
    let redactedUrl := redactUrl url
    let normalized := normalizeUrl redactedUrl
    (some normalized.normalizedUrl, some normalized.normalizedPath,
     some (endpointKey method normalized.normalizedPath),
     some (extractFeatures parsed 3 50))
  | _, _ => (none, none, none, none)

/-- The outcome of the body-read phase of handleResponse. -/
structure BodyPhase where
  bodyBuffer : Option (List Nat)
  bodyAvailable : Bool
  truncated : Bool
  omittedReason : Option OmittedReason
  jsonParseSuccess : Bool
  parseError : Option String
  parsedBody : Option Json

/-- The body read, size check and JSON parse of handleResponse. -/
def readBodyPhase (jsonParse : List Nat → Option Json)
    (opts : MonitorOptions) (contentType : String) (r : RespInput) :
    BodyPhase :=
  match r.body with
  | none =>
    ⟨none, false, false, some .unavailable, false,
     some (redactError r.bodyErrorMsg), none⟩
  | some b =>
    if b.length > opts.maxBodyBytes then
      ⟨none, true, true, some .maxBodyBytes, false, none, none⟩
    else
      match jsonParse b with
      | some v => ⟨some b, true, false, none, true, none, some v⟩
      | none =>
        let pe := some (redactError r.parseErrorMsg)
        if ¬opts.captureAllJson ∧ ¬isJsonContentType contentType then
          ⟨none, true, false, some .nonJson, false, pe, none⟩
        else
          ⟨none, true, false, some .parseError, false, pe, none⟩

/-- The content type read from the response headers (empty when the
header is absent). -/
def contentTypeOf (responseHeaders : List (String × String)) : String :=
  (headerGet responseHeaders "content-type").getD ""

/-- The include filter: drop when an include pattern is set and the URL
does not match. -/
def includeSkip (opts : MonitorOptions) (url : String) : Bool :=
  match opts.includeTest with
  | some t => !t url
  | none => false

/-- The exclude filter: drop when an exclude pattern is set and the URL
matches. -/
def excludeSkip (opts : MonitorOptions) (url : String) : Bool :=
  match opts.excludeTest with
  | some t => t url
  | none => false

/-- The deduplication key (endpointKey or url) | status | bodyHash. -/
def dedupeKeyOf (jsonParse : List Nat → Option Json)
    (opts : MonitorOptions) (r : RespInput) : String :=
  let phase := readBodyPhase jsonParse opts (contentTypeOf r.responseHeaders) r
  let norm := normFeatures r.method r.url phase.jsonParseSuccess phase.parsedBody
  norm.2.2.1.getD r.url ++ "|" ++ toString r.status ++ "|" ++
    (match phase.bodyBuffer with
     | some b => computeHash b
     | none => "")

/-- The capture record assembled by the main path of handleResponse. -/
def mainRecord (jsonParse : List Nat → Option Json)
    (opts : MonitorOptions) (r : RespInput) : RecordBase :=
  let contentType := contentTypeOf r.responseHeaders
  let phase := readBodyPhase jsonParse opts contentType r
  let norm := normFeatures r.method r.url phase.jsonParseSuccess phase.parsedBody
  { timestamp := r.timestamp
    url := redactUrl r.url
    status := r.status
    method := r.method
    requestHeaders := redactHeaders r.requestHeaders
    responseHeaders := redactHeaders r.responseHeaders
    contentType := contentType
    payloadSize := (phase.bodyBuffer.map List.length).getD 0
    bodyAvailable := phase.bodyAvailable
    truncated := phase.truncated
    omittedReason := phase.omittedReason
    jsonParseSuccess := phase.jsonParseSuccess
    parseError := phase.parseError
    normalizedUrl := norm.1
    normalizedPath := norm.2.1
    endpointKey := norm.2.2.1
    features := norm.2.2.2 }

/-- handleResponse of monitor.ts: the gate cascade, body read, parse,
normalization, feature extraction, deduplication and persistence.
Returns the handler outcome with the updated dedup set and store. -/
def handleResponse (jsonParse : List Nat → Option Json)
    (opts : MonitorOptions) (captureCount : Nat) (seen : List String)
    (store : StoreState) (r : RespInput) :
    HandleResult × List String × StoreState :=
  if 0 < opts.maxCaptures ∧ opts.maxCaptures ≤ captureCount then
    (.skipped, seen, store)
  else if includeSkip opts r.url then (.skipped, seen, store)
  else if excludeSkip opts r.url then (.skipped, seen, store)
  else if !shouldCaptureOf opts r.resourceType (contentTypeOf r.responseHeaders) then
    (.skipped, seen, store)
  else if r.status < 200 ∨ 400 ≤ r.status then (.skipped, seen, store)
  else if r.status = 204 ∨ r.status = 304 then
    (.captured, seen,
     storeMetadataOnly jsonParse opts.inlineBodyBytes store r .emptyBody)
  else if contentLengthGate opts r.responseHeaders then
    (.captured, seen,
     storeMetadataOnly jsonParse opts.inlineBodyBytes store r .maxBodyBytes)
  else if seen.contains (dedupeKeyOf jsonParse opts r) then
    (.duplicate, seen, store)
  else
    (.captured, dedupeKeyOf jsonParse opts r :: seen,
     storeCapture jsonParse opts.inlineBodyBytes r.writeFails store
       (mainRecord jsonParse opts r)
       (readBodyPhase jsonParse opts (contentTypeOf r.responseHeaders)
         r).bodyBuffer)

/-- The run-level mutable state of monitor: the dedup set, the counters
updated in the response callback, and the store. -/
structure MonitorState where
  seen : List String
  captureCount : Nat
  duplicateCount : Nat
  store : StoreState

def initMonitorState : MonitorState := ⟨[], 0, 0, emptyStore⟩

/-- One response callback: run handleResponse, then bump the counters
according to its outcome. -/
def monitorStep (jsonParse : List Nat → Option Json)
    (opts : MonitorOptions) (st : MonitorState) (r : RespInput) :
    MonitorState :=
  let res := handleResponse jsonParse opts st.captureCount st.seen st.store r
  { seen := res.2.1
    captureCount :=
      if res.1 = .captured then st.captureCount + 1 else st.captureCount
    duplicateCount :=
      if res.1 = .duplicate then st.duplicateCount + 1 else st.duplicateCount
    store := res.2.2 }

/-- The capture window processing a sequence of responses in order (the
limiter serializes the shared-state updates; ordering between tasks is
not guaranteed, so theorems quantify over the order). -/
def runMonitor (jsonParse : List Nat → Option Json)
    (opts : MonitorOptions) (rs : List RespInput) : MonitorState :=
  rs.foldl (monitorStep jsonParse opts) initMonitorState

end NetJsonMon

namespace NetJsonMon

/-! ## score.ts -/

/-- EndpointAggregate of score.ts.  avgDepth is the JavaScript number
field, modelled as an exact rational. -/
structure EndpointAggregate where
  endpointKey : String
  count : Nat
  statusCounts : List (Nat × Nat)
  hosts : List String
  payloadSizes : List Nat
  schemaHashes : List String
  samplePaths : List String
  firstSeen : String
  lastSeen : String
  bodyAvailableCount : Nat
  jsonParseSuccessCount : Nat
  noBodyCount : Nat
  hasArrayStructure : Bool
  hasDataFlags : Bool
  avgDepth : Rat

/-- ScoredEndpoint of score.ts.  The reasons list (human-readable
strings emitted alongside the score) is presentation-only and not
modelled; no claim inspects it. -/
structure ScoredEndpoint extends EndpointAggregate where
  score : Rat
  avgPayloadSize : Rat
  maxPayloadSize : Nat
  distinctSchemas : Nat
  bodyAvailableRate : Rat
  bodyRate : Rat
  bodyEvidenceFactor : Rat

/-- computeBodyEvidenceFactor with the fixed config scale 1.5 and
minFactor 0.05. -/
def computeBodyEvidenceFactor (bodyRate : Rat) : Rat :=
  let scaled := bodyRate * (3 / 2)
  let clamped := min 1 (max 0 scaled)
  max (1 / 20) clamped

/-- scoreEndpoint with the default weights 0.3 / 0.3 / 0.2 / 0.2.
generateSummary only calls it with a positive totalCaptures. -/
def scoreEndpoint (agg : EndpointAggregate) (totalCaptures : Nat) :
    ScoredEndpoint :=
  let avgPayloadSize : Rat :=
    if 0 < agg.payloadSizes.length then
      ((agg.payloadSizes.map (fun n => (n : Rat))).sum) /
        (agg.payloadSizes.length : Rat)
    else 0
  let maxPayloadSize := agg.payloadSizes.foldl max 0
  let distinctSchemas := agg.schemaHashes.dedup.length
  let bodyAvailableRate : Rat :=
    if 0 < agg.count then (agg.bodyAvailableCount : Rat) / (agg.count : Rat)
    else 0
  let bodyRate : Rat :=
    if 0 < agg.count then
      (agg.jsonParseSuccessCount : Rat) / (agg.count : Rat)
    else 0
  let frequencyRatio : Rat := (agg.count : Rat) / (totalCaptures : Rat)
  let frequencyScore := min (frequencyRatio * 3) 1 * (3 / 10)
  let sizeScore := min (avgPayloadSize / 10000) 1 * (3 / 10)
  let structureRaw : Rat :=
    (if agg.hasArrayStructure then 1 / 2 else 0) +
    (if agg.hasDataFlags then 1 / 2 else 0)
  let structureScore := min structureRaw 1 * (1 / 5)
  let stabilityRatio : Rat :=
    if distinctSchemas = 0 then 0
    else max (1 - ((distinctSchemas : Rat) - 1) * (1 / 5)) (1 / 5)
  let stabilityScore := stabilityRatio * (1 / 5)
  let bodyEvidenceFactor := computeBodyEvidenceFactor bodyRate
  let raw := frequencyScore + sizeScore + structureScore + stabilityScore
  let score := max 0 (min 1 (raw * bodyEvidenceFactor))
  { toEndpointAggregate := agg
    score := score
    avgPayloadSize := avgPayloadSize
    maxPayloadSize := maxPayloadSize
    distinctSchemas := distinctSchemas
    bodyAvailableRate := bodyAvailableRate
    bodyRate := bodyRate
    bodyEvidenceFactor := bodyEvidenceFactor }

/-- The comparator of sortByScore: a stays before b exactly when the
compare callback returns a nonpositive number, that is, scores within
0.001 of each other are tie-broken by count descending, and otherwise
the higher score comes first. -/
def scoreCmpLe (a b : ScoredEndpoint) : Bool :=
  if |a.score - b.score| < 1 / 1000 then decide (b.count ≤ a.count)
  else decide (b.score ≤ a.score)

/-- sortByScore of score.ts (a stable comparison sort with the
comparator above). -/
def sortByScore (endpoints : List ScoredEndpoint) : List ScoredEndpoint :=
  insertionSortB scoreCmpLe endpoints

/-! ## summary.ts -/

/-- createEmptyAggregate. -/
def createEmptyAggregate (endpointKey : String) : EndpointAggregate :=
  ⟨endpointKey, 0, [], [], [], [], [], "", "", 0, 0, 0, false, false, 0⟩

/-- Hostname of a URL (the host component up to the port separator). -/
def hostnameOf (u : UrlModel) : String := ⟨(splitFirst ':' u.host).1⟩

/-- Bump a status count in the status distribution object. -/
def bumpStatus (counts : List (Nat × Nat)) (status : Nat) : List (Nat × Nat) :=
  if counts.any (fun kv => kv.1 = status) then
    counts.map (fun kv => if kv.1 = status then (kv.1, kv.2 + 1) else kv)
  else counts ++ [(status, 1)]

/-- Deduplicating push used for hosts and samplePaths. -/
def pushUnique (l : List String) (x : String) : List String :=
  if l.contains x then l else l ++ [x]

/-- updateAggregate of summary.ts: fold one record into its aggregate. -/
def updateAggregate (agg : EndpointAggregate) (record : CaptureRecord) :
    EndpointAggregate :=
  let count := agg.count + 1
  let bodyAvailableCount :=
    if record.bodyAvailable then agg.bodyAvailableCount + 1
    else agg.bodyAvailableCount
  let noBodyCount :=
    if record.bodyAvailable then agg.noBodyCount else agg.noBodyCount + 1
  let jsonParseSuccessCount :=
    if record.jsonParseSuccess then agg.jsonParseSuccessCount + 1
    else agg.jsonParseSuccessCount
  let statusCounts := bumpStatus agg.statusCounts record.status
  let hosts :=
    match parseUrl record.url.data with
    | some u => pushUnique agg.hosts (hostnameOf u)
    | none => agg.hosts
  let payloadSizes :=
    if 0 < record.payloadSize then agg.payloadSizes ++ [record.payloadSize]
    else agg.payloadSizes
  let schemaHashes :=
    match record.features with
    | some f =>
      if f.schemaHash ≠ "" ∧ ¬agg.schemaHashes.contains f.schemaHash then
        agg.schemaHashes ++ [f.schemaHash]
      else agg.schemaHashes
    | none => agg.schemaHashes
  let samplePaths :=
    match record.features with
    | some f => f.samplePaths.foldl pushUnique agg.samplePaths
    | none => agg.samplePaths
  let firstSeen :=
    if agg.firstSeen = "" ∨ record.timestamp < agg.firstSeen then
      record.timestamp
    else agg.firstSeen
  let lastSeen :=
    if agg.lastSeen = "" ∨ agg.lastSeen < record.timestamp then
      record.timestamp
    else agg.lastSeen
  let hasArrayStructure :=
    match record.features with
    | some f => agg.hasArrayStructure || f.isArray
    | none => agg.hasArrayStructure
  let hasDataFlags :=
    match record.features with
    | some f =>
      agg.hasDataFlags || (f.hasId || f.hasItems || f.hasResults || f.hasData)
    | none => agg.hasDataFlags
  let avgDepth :=
    match record.features with
    | some f =>
      if 0 < f.depthEstimate then
        (agg.avgDepth * ((count : Rat) - 1) + (f.depthEstimate : Rat)) /
          (count : Rat)
      else agg.avgDepth
    | none => agg.avgDepth
  ⟨agg.endpointKey, count, statusCounts, hosts, payloadSizes, schemaHashes,
   samplePaths, firstSeen, lastSeen, bodyAvailableCount,
   jsonParseSuccessCount, noBodyCount, hasArrayStructure, hasDataFlags,
   avgDepth⟩

/-- The aggregate key of a journal record: endpointKey with a fallback
to the redacted URL (the empty string is falsy). -/
def aggregateKey (record : CaptureRecord) : String :=
  match record.endpointKey with
  | some k => if k = "" then record.url else k
  | none => record.url

/-- Map.set semantics over an insertion-ordered association list. -/
def updateAggMap (m : List (String × EndpointAggregate))
    (record : CaptureRecord) : List (String × EndpointAggregate) :=
  let key := aggregateKey record
  if m.any (fun kv => kv.1 = key) then
    m.map (fun kv =>
      if kv.1 = key then (kv.1, updateAggregate kv.2 record) else kv)
  else m ++ [(key, updateAggregate (createEmptyAggregate key) record)]

/-- The line statistics of streamAggregateIndex.  The source initializes
duplicates and redactions to 0 and never increments them; only truncated
is counted from the records. -/
structure AggStats where
  duplicates : Nat
  redactions : Nat
  truncated : Nat

/-- streamAggregateIndex of summary.ts over an already-parsed journal
(per-line parse failures are skipped by the source and do not occur in
the model, where the journal is the list of well-formed records). -/
def streamAggregateIndex (journal : List CaptureRecord) :
    List (String × EndpointAggregate) × AggStats :=
  let start : List (String × EndpointAggregate) × Nat := ([], 0)
  let result := journal.foldl
    (fun acc record =>
      (updateAggMap acc.1 record,
       if record.truncated then acc.2 + 1 else acc.2))
    start
  (result.1, ⟨0, 0, result.2⟩)

/-- The summary counters written to summary.json (endpoints carries the
full sorted list; summary.json embeds its first 20 entries and
endpoints.jsonl all of them). -/
structure RunSummary where
  totalResponses : Nat
  jsonCaptures : Nat
  duplicatesSkipped : Nat
  totalEndpoints : Nat
  endpoints : List ScoredEndpoint

/-- generateSummary of summary.ts without the optional ML predictor
(tryLoadMLPredictor finds no model in a core run): aggregate the
journal, score, sort, and assemble the summary.  Returns none when the
journal yields no captures (summary generation is skipped). -/
def generateSummary (journal : List CaptureRecord) : Option RunSummary :=
  let r := streamAggregateIndex journal
  let aggregates := r.1
  let totalCaptures := (aggregates.map (fun kv => kv.2.count)).sum
  let duplicatesSkipped := r.2.duplicates
  if totalCaptures = 0 then none
  else
    let scored := aggregates.map (fun kv => scoreEndpoint kv.2 totalCaptures)
    let sortedEndpoints := sortByScore scored
    some ⟨totalCaptures + duplicatesSkipped, totalCaptures,
          duplicatesSkipped, sortedEndpoints.length, sortedEndpoints⟩

end NetJsonMon

namespace NetJsonMon

/-! ## Concrete inputs for claim-level evaluations -/

def digitsToNat (b : List Nat) : Nat :=
  b.foldl (fun acc c => acc * 10 + (c - 48)) 0

/-- JSON.parse on the bodies the concrete evaluations use: a plain
decimal integer literal (digits, no leading zero) parses to that number,
anything else throws.  This agrees with JSON.parse on every buffer the
evaluations below submit. -/
def jsonParseDigits (b : List Nat) : Option Json :=
  if b ≠ [] ∧ b.head? ≠ some 48 ∧ b.all (fun c => 48 ≤ c ∧ c ≤ 57) then
    some (.num (digitsToNat b))
  else none

/-- The default options of the init scaffold: maxCaptures 500,
maxBodyBytes 1 MiB, inlineBodyBytes 16 KiB, no URL filters. -/
def defOpts : MonitorOptions :=
  { maxCaptures := 500
    maxBodyBytes := 1048576
    inlineBodyBytes := 16384
    captureAllJson := false
    includeTest := none
    excludeTest := none }

/-- A 200 xhr JSON response whose body is the decimal literal 7. -/
def subGet7 : RespInput :=
  { timestamp := "2026-01-01T00:00:00.000Z"
    url := "https://api.example.com/data"
    status := 200
    method := "GET"
    resourceType := "xhr"
    requestHeaders := []
    responseHeaders := [("content-type", "application/json")]
    body := some [55]
    bodyErrorMsg := ""
    parseErrorMsg := ""
    writeFails := false }

/-- C4 failing input: a parse-successful record whose body (nine bytes,
the decimal literal 111111111) exceeds the inline boundary, submitted to
a store whose body-file write fails. -/
def c4Base : RecordBase :=
  { timestamp := "2026-01-01T00:00:00.000Z"
    url := "https://api.example.com/data"
    status := 200
    method := "GET"
    requestHeaders := []
    responseHeaders := [("content-type", "application/json")]
    contentType := "application/json"
    payloadSize := 9
    bodyAvailable := true
    truncated := false
    omittedReason := none
    jsonParseSuccess := true
    parseError := none
    normalizedUrl := none
    normalizedPath := none
    endpointKey := some "GET /data"
    features := none }

def c4Body : List Nat := 49 :: List.replicate 8 49

set_option maxRecDepth 100000 in
/-- C4: when the externalizing body-file write fails, storeCapture only
clears bodyPath; the persisted record is metadata-only in shape (no
bodyPath, no inlineBody) but its omittedReason stays unset instead of
being set to unavailable as the spec (and the catch-branch comment of
the source) require. -/
theorem c4_write_failure_leaves_omittedReason_unset :
    ((storeCapture jsonParseDigits 4 true emptyStore c4Base
        (some c4Body)).index.map
      (fun r => (r.bodyPath, r.omittedReason))) =
        [(none, none)] ∧
    ((storeCapture jsonParseDigits 4 true emptyStore c4Base
        (some c4Body)).index.map CaptureRecord.inlineBody) = [none] ∧
    (storeCapture jsonParseDigits 4 true emptyStore c4Base
        (some c4Body)).writeLog = [] := by
  refine ⟨rfl, rfl, rfl⟩

set_option maxRecDepth 100000 in
/-- C2: submitting the same (endpointKey, status, bodyHash) triple three
times yields exactly one journal record and an in-monitor duplicate
count of 2, but the summary reports duplicatesSkipped = 0: the
duplicates counter of streamAggregateIndex is initialized to zero and
never incremented, and the count tracked by the monitor is not passed to
summary generation. -/
theorem c2_duplicatesSkipped_is_zero_not_two :
    (runMonitor jsonParseDigits defOpts [subGet7, subGet7, subGet7]
      ).store.index.length = 1 ∧
    (runMonitor jsonParseDigits defOpts [subGet7, subGet7, subGet7]
      ).duplicateCount = 2 ∧
    ((generateSummary (runMonitor jsonParseDigits defOpts
        [subGet7, subGet7, subGet7]).store.index).map
      RunSummary.duplicatesSkipped) = some 0 := by
  refine ⟨by decide, by decide, by decide⟩

end NetJsonMon

namespace NetJsonMon

/-! ## C1: endpointKey presence on persisted records -/

/-- A 204 response (passes the gates, persisted metadata-only). -/
def sub204 : RespInput :=
  { timestamp := "2026-01-01T00:00:01.000Z"
    url := "https://api.example.com/data"
    status := 204
    method := "GET"
    resourceType := "xhr"
    requestHeaders := []
    responseHeaders := []
    body := none
    bodyErrorMsg := ""
    parseErrorMsg := ""
    writeFails := false }

set_option maxRecDepth 100000 in
/-- C1 counterexample: a 204 response is persisted metadata-only with no
endpointKey at all, refuting the claim that every persisted record
carries a non-empty endpointKey. -/
theorem c1_counterexample_metadata_record_has_no_endpointKey :
    (runMonitor jsonParseDigits defOpts [sub204]).store.index.map
      CaptureRecord.endpointKey = [none] := by
  decide

/-- Every storeCapture appends exactly one record, built from the given
base record. -/
theorem storeCapture_index_shape (jp : List Nat → Option Json)
    (ibb : Nat) (wf : Bool) (st : StoreState) (rec : RecordBase)
    (buf : Option (List Nat)) :
    ∃ bh bp ib, (storeCapture jp ibb wf st rec buf).index =
      st.index ++ [rec.toRecord bh bp ib] := by
  unfold storeCapture
  rcases buf with _ | b
  · exact ⟨_, _, _, rfl⟩
  · dsimp only
    split
    · split
      · rcases jp b with _ | parsed <;> exact ⟨_, _, _, rfl⟩
      · rcases jp b with _ | parsed
        · exact ⟨_, _, _, rfl⟩
        · dsimp only
          split <;> exact ⟨_, _, _, rfl⟩
    · exact ⟨_, _, _, rfl⟩

/-- The appended record carries the hash of the passed buffer. -/
theorem storeCapture_index_record (jp : List Nat → Option Json)
    (ibb : Nat) (wf : Bool) (st : StoreState) (rec : RecordBase)
    (buf : Option (List Nat)) :
    ∃ bp ib, (storeCapture jp ibb wf st rec buf).index =
      st.index ++ [rec.toRecord
        (match buf with
         | some b => computeHash b
         | none => "") bp ib] := by
  unfold storeCapture
  rcases buf with _ | b
  · exact ⟨_, _, rfl⟩
  · dsimp only
    split
    · split
      · rcases jp b with _ | parsed <;> exact ⟨_, _, rfl⟩
      · rcases jp b with _ | parsed
        · exact ⟨_, _, rfl⟩
        · dsimp only
          split <;> exact ⟨_, _, rfl⟩
    · exact ⟨_, _, rfl⟩

theorem toRecord_endpointKey (r : RecordBase) (bh bp ib) :
    (r.toRecord bh bp ib).endpointKey = r.endpointKey := rfl

theorem toRecord_jsonParseSuccess (r : RecordBase) (bh bp ib) :
    (r.toRecord bh bp ib).jsonParseSuccess = r.jsonParseSuccess := rfl

/-- An endpoint key is never the empty string (it contains a space). -/
theorem endpointKey_ne_empty (m p : String) : endpointKey m p ≠ "" := by
  intro h
  have h2 := congrArg String.data h
  simp only [endpointKey, String.data_append] at h2
  simp at h2

/-- A successful parse phase carries a parsed body. -/
theorem readBodyPhase_parsed (jp : List Nat → Option Json)
    (opts : MonitorOptions) (ct : String) (r : RespInput)
    (h : (readBodyPhase jp opts ct r).jsonParseSuccess = true) :
    ∃ v, (readBodyPhase jp opts ct r).parsedBody = some v := by
  revert h
  unfold readBodyPhase
  rcases r.body with _ | b
  · intro h
    simp at h
  · dsimp only
    by_cases hsz : b.length > opts.maxBodyBytes
    · rw [if_pos hsz]
      intro h
      simp at h
    · rw [if_neg hsz]
      rcases jp b with _ | v
      · dsimp only
        intro h
        split at h <;> simp at h
      · intro _
        exact ⟨v, rfl⟩

/-- storeMetadataOnly appends one record with no parse success and no
endpointKey. -/
theorem storeMetadataOnly_record (jp : List Nat → Option Json) (ibb : Nat)
    (st : StoreState) (r : RespInput) (reason : OmittedReason) :
    ∃ rec, (storeMetadataOnly jp ibb st r reason).index =
        st.index ++ [rec] ∧
      rec.jsonParseSuccess = false ∧ rec.endpointKey = none ∧
      rec.bodyAvailable = false ∧ rec.bodyHash = "" := by
  unfold storeMetadataOnly
  obtain ⟨bp, ib, h⟩ := storeCapture_index_record jp ibb false st _ none
  exact ⟨_, h, rfl, rfl, rfl, rfl⟩

/-- The per-record endpointKey invariant established by handleResponse:
records with a successful JSON parse carry the endpoint key derived from
the method and the normalized path (which is never empty), and records
without a successful parse carry no endpointKey. -/
theorem handleResponse_index_endpointKey (jp : List Nat → Option Json)
    (opts : MonitorOptions) (cc : Nat) (seen : List String)
    (store : StoreState) (r : RespInput) :
    (handleResponse jp opts cc seen store r).2.2.index = store.index ∨
    ∃ rec, (handleResponse jp opts cc seen store r).2.2.index =
        store.index ++ [rec] ∧
      (rec.jsonParseSuccess = true →
        ∃ p, rec.normalizedPath = some p ∧
          rec.endpointKey = some (endpointKey rec.method p) ∧
          endpointKey rec.method p ≠ "") ∧
      (rec.jsonParseSuccess = false → rec.endpointKey = none) := by
  unfold handleResponse
  by_cases h1 : 0 < opts.maxCaptures ∧ opts.maxCaptures ≤ cc
  · rw [if_pos h1]
    exact Or.inl rfl
  rw [if_neg h1]
  by_cases h2 : includeSkip opts r.url = true
  · rw [if_pos h2]
    exact Or.inl rfl
  rw [if_neg h2]
  by_cases h3 : excludeSkip opts r.url = true
  · rw [if_pos h3]
    exact Or.inl rfl
  rw [if_neg h3]
  by_cases h4 : (!shouldCaptureOf opts r.resourceType
      (contentTypeOf r.responseHeaders)) = true
  · rw [if_pos h4]
    exact Or.inl rfl
  rw [if_neg h4]
  by_cases h5 : r.status < 200 ∨ 400 ≤ r.status
  · rw [if_pos h5]
    exact Or.inl rfl
  rw [if_neg h5]
  by_cases h6 : r.status = 204 ∨ r.status = 304
  · rw [if_pos h6]
    obtain ⟨rec, hshape, hjs, hek, hba, hbh⟩ := storeMetadataOnly_record jp
      opts.inlineBodyBytes store r .emptyBody
    refine Or.inr ⟨rec, hshape, ?_, fun _ => hek⟩
    intro htrue
    rw [hjs] at htrue
    exact absurd htrue (by simp)
  rw [if_neg h6]
  by_cases h7 : contentLengthGate opts r.responseHeaders = true
  · rw [if_pos h7]
    obtain ⟨rec, hshape, hjs, hek, hba, hbh⟩ := storeMetadataOnly_record jp
      opts.inlineBodyBytes store r .maxBodyBytes
    refine Or.inr ⟨rec, hshape, ?_, fun _ => hek⟩
    intro htrue
    rw [hjs] at htrue
    exact absurd htrue (by simp)
  rw [if_neg h7]
  by_cases h8 : seen.contains (dedupeKeyOf jp opts r) = true
  · rw [if_pos h8]
    exact Or.inl rfl
  rw [if_neg h8]
  obtain ⟨bh, bp, ib, hshape⟩ := storeCapture_index_shape jp
    opts.inlineBodyBytes r.writeFails store (mainRecord jp opts r)
    (readBodyPhase jp opts (contentTypeOf r.responseHeaders) r).bodyBuffer
  refine Or.inr ⟨_, hshape, ?_, ?_⟩
  · intro hjs
    rw [toRecord_jsonParseSuccess] at hjs
    rw [toRecord_endpointKey]
    unfold mainRecord at hjs ⊢
    dsimp only at hjs ⊢
    rcases hs : (readBodyPhase jp opts
        (contentTypeOf r.responseHeaders) r).jsonParseSuccess with _ | _
    · rw [hs] at hjs
      exact absurd hjs (by simp)
    · obtain ⟨v, hv⟩ := readBodyPhase_parsed jp opts _ r hs
      rw [hv]
      unfold normFeatures
      exact ⟨_, rfl, rfl, endpointKey_ne_empty _ _⟩
  · intro hjs
    rw [toRecord_jsonParseSuccess] at hjs
    rw [toRecord_endpointKey]
    unfold mainRecord at hjs ⊢
    dsimp only at hjs ⊢
    rcases hs : (readBodyPhase jp opts
        (contentTypeOf r.responseHeaders) r).jsonParseSuccess with _ | _
    · rcases hp : (readBodyPhase jp opts
          (contentTypeOf r.responseHeaders) r).parsedBody with _ | v
      · rfl
      · rfl
    · rw [hs] at hjs
      exact absurd hjs (by simp)

end NetJsonMon

namespace NetJsonMon

/-- C1 amended: a persisted record carries the endpoint key derived from
the uppercased method and the normalized path (never empty) exactly when
its JSON parse succeeded; records persisted without a successful parse,
including all metadata-only records, carry no endpointKey at all. -/
theorem c1_amended_endpointKey_iff_parse (jp : List Nat → Option Json)
    (opts : MonitorOptions) (rs : List RespInput) :
    ∀ rec ∈ (runMonitor jp opts rs).store.index,
      (rec.jsonParseSuccess = true →
        ∃ p, rec.normalizedPath = some p ∧
          rec.endpointKey = some (endpointKey rec.method p) ∧
          endpointKey rec.method p ≠ "") ∧
      (rec.jsonParseSuccess = false → rec.endpointKey = none) := by
  suffices h : ∀ st : MonitorState,
      (∀ rec ∈ st.store.index,
        (rec.jsonParseSuccess = true →
          ∃ p, rec.normalizedPath = some p ∧
            rec.endpointKey = some (endpointKey rec.method p) ∧
            endpointKey rec.method p ≠ "") ∧
        (rec.jsonParseSuccess = false → rec.endpointKey = none)) →
      ∀ rec ∈ (rs.foldl (monitorStep jp opts) st).store.index,
        (rec.jsonParseSuccess = true →
          ∃ p, rec.normalizedPath = some p ∧
            rec.endpointKey = some (endpointKey rec.method p) ∧
            endpointKey rec.method p ≠ "") ∧
        (rec.jsonParseSuccess = false → rec.endpointKey = none) by
    refine h initMonitorState ?_
    intro rec hrec
    simp [initMonitorState, emptyStore] at hrec
  induction rs with
  | nil => intro st hst; exact hst
  | cons r rs ih =>
    intro st hst
    refine ih (monitorStep jp opts st r) ?_
    intro rec hrec
    have hms : (monitorStep jp opts st r).store =
        (handleResponse jp opts st.captureCount st.seen st.store r).2.2 := rfl
    rw [hms] at hrec
    rcases handleResponse_index_endpointKey jp opts st.captureCount st.seen
        st.store r with heq | ⟨rec', heq, hP⟩
    · rw [heq] at hrec
      exact hst rec hrec
    · rw [heq] at hrec
      rcases List.mem_append.mp hrec with hin | hnew
      · exact hst rec hin
      · rw [List.mem_singleton] at hnew
        subst hnew
        exact hP

set_option maxRecDepth 400000 in
/-- Witness for the amended C1 theorem at a concrete run. -/
theorem c1_amended_witness :
    ∃ rec, rec ∈ (runMonitor jsonParseDigits defOpts [subGet7]).store.index ∧
      ((rec.jsonParseSuccess = true →
        ∃ p, rec.normalizedPath = some p ∧
          rec.endpointKey = some (endpointKey rec.method p) ∧
          endpointKey rec.method p ≠ "") ∧
      (rec.jsonParseSuccess = false → rec.endpointKey = none)) :=
  ⟨_, List.mem_cons_self _ _,
   c1_amended_endpointKey_iff_parse jsonParseDigits defOpts [subGet7] _
     (List.mem_cons_self _ _)⟩

end NetJsonMon

namespace NetJsonMon

/-! ## C3: bodyHash -/

/-- A non-JSON xhr response whose five-byte body (the ASCII text hello)
is read but fails to parse. -/
def subHello : RespInput :=
  { timestamp := "2026-01-01T00:00:02.000Z"
    url := "https://api.example.com/page"
    status := 200
    method := "GET"
    resourceType := "xhr"
    requestHeaders := []
    responseHeaders := [("content-type", "text/html")]
    body := some [104, 101, 108, 108, 111]
    bodyErrorMsg := ""
    parseErrorMsg := "Unexpected token h in JSON at position 0"
    writeFails := false }

set_option maxRecDepth 100000 in
/-- C3 counterexample: the body bytes of a non-JSON response are read
(bodyAvailable is true) and then dropped, and the persisted record has
an empty bodyHash even though the SHA-256 digest of the read bytes is a
64-character hex string, never the empty string. -/
theorem c3_counterexample_read_bytes_with_empty_hash :
    ((runMonitor jsonParseDigits defOpts [subHello]).store.index.map
      (fun rec => (rec.bodyAvailable, rec.bodyHash))) = [(true, "")] ∧
    sha256hex [104, 101, 108, 108, 111] ≠ "" := by
  exact ⟨by decide, by decide⟩

/-- The four outcomes of the body-read phase. -/
theorem readBodyPhase_cases (jp : List Nat → Option Json)
    (opts : MonitorOptions) (ct : String) (r : RespInput) :
    (r.body = none ∧ readBodyPhase jp opts ct r =
      ⟨none, false, false, some .unavailable, false,
       some (redactError r.bodyErrorMsg), none⟩) ∨
    (∃ b, r.body = some b ∧ opts.maxBodyBytes < b.length ∧
      readBodyPhase jp opts ct r =
        ⟨none, true, true, some .maxBodyBytes, false, none, none⟩) ∨
    (∃ b v, r.body = some b ∧ b.length ≤ opts.maxBodyBytes ∧
      jp b = some v ∧ readBodyPhase jp opts ct r =
        ⟨some b, true, false, none, true, none, some v⟩) ∨
    (∃ b reason, r.body = some b ∧ b.length ≤ opts.maxBodyBytes ∧
      jp b = none ∧ readBodyPhase jp opts ct r =
        ⟨none, true, false, some reason, false,
         some (redactError r.parseErrorMsg), none⟩) := by
  unfold readBodyPhase
  rcases r.body with _ | b
  · exact Or.inl ⟨rfl, rfl⟩
  · dsimp only
    by_cases hsz : b.length > opts.maxBodyBytes
    · rw [if_pos hsz]
      exact Or.inr (Or.inl ⟨b, rfl, hsz, rfl⟩)
    · rw [if_neg hsz]
      push_neg at hsz
      rcases hjp : jp b with _ | v
      · dsimp only
        refine Or.inr (Or.inr (Or.inr ⟨b, ?_⟩))
        split
        · exact ⟨.nonJson, rfl, hsz, hjp, rfl⟩
        · exact ⟨.parseError, rfl, hsz, hjp, rfl⟩
      · exact Or.inr (Or.inr (Or.inl ⟨b, v, rfl, hsz, hjp, rfl⟩))

/-- C3 amended: for the record a response persists, bodyHash is the
lowercase hex SHA-256 of the raw bytes exactly when the bytes were both
read and retained (within maxBodyBytes and successfully parsed); in
every other case, including records whose bytes were read but dropped
as oversized, non-JSON or unparseable, bodyHash is the empty string.
Since the right-hand side depends only on the bytes and the options,
byte-identical bodies in one run always receive identical bodyHash. -/
theorem c3_amended_bodyHash (jp : List Nat → Option Json)
    (opts : MonitorOptions) (cc : Nat) (seen : List String)
    (store : StoreState) (r : RespInput) :
    (handleResponse jp opts cc seen store r).2.2.index = store.index ∨
    ∃ rec, (handleResponse jp opts cc seen store r).2.2.index =
        store.index ++ [rec] ∧
      (rec.bodyAvailable = false → rec.bodyHash = "") ∧
      (rec.bodyAvailable = true → ∃ b, r.body = some b ∧
        rec.bodyHash =
          (if b.length ≤ opts.maxBodyBytes ∧ (jp b).isSome
           then sha256hex b else "")) := by
  unfold handleResponse
  by_cases h1 : 0 < opts.maxCaptures ∧ opts.maxCaptures ≤ cc
  · rw [if_pos h1]; exact Or.inl rfl
  rw [if_neg h1]
  by_cases h2 : includeSkip opts r.url = true
  · rw [if_pos h2]; exact Or.inl rfl
  rw [if_neg h2]
  by_cases h3 : excludeSkip opts r.url = true
  · rw [if_pos h3]; exact Or.inl rfl
  rw [if_neg h3]
  by_cases h4 : (!shouldCaptureOf opts r.resourceType
      (contentTypeOf r.responseHeaders)) = true
  · rw [if_pos h4]; exact Or.inl rfl
  rw [if_neg h4]
  by_cases h5 : r.status < 200 ∨ 400 ≤ r.status
  · rw [if_pos h5]; exact Or.inl rfl
  rw [if_neg h5]
  by_cases h6 : r.status = 204 ∨ r.status = 304
  · rw [if_pos h6]
    obtain ⟨rec, hshape, hjs, hek, hba, hbh⟩ := storeMetadataOnly_record jp
      opts.inlineBodyBytes store r .emptyBody
    refine Or.inr ⟨rec, hshape, fun _ => hbh, ?_⟩
    intro htrue
    rw [hba] at htrue
    exact absurd htrue (by simp)
  rw [if_neg h6]
  by_cases h7 : contentLengthGate opts r.responseHeaders = true
  · rw [if_pos h7]
    obtain ⟨rec, hshape, hjs, hek, hba, hbh⟩ := storeMetadataOnly_record jp
      opts.inlineBodyBytes store r .maxBodyBytes
    refine Or.inr ⟨rec, hshape, fun _ => hbh, ?_⟩
    intro htrue
    rw [hba] at htrue
    exact absurd htrue (by simp)
  rw [if_neg h7]
  by_cases h8 : seen.contains (dedupeKeyOf jp opts r) = true
  · rw [if_pos h8]; exact Or.inl rfl
  rw [if_neg h8]
  obtain ⟨bp, ib, hshape⟩ := storeCapture_index_record jp
    opts.inlineBodyBytes r.writeFails store (mainRecord jp opts r)
    (readBodyPhase jp opts (contentTypeOf r.responseHeaders) r).bodyBuffer
  refine Or.inr ⟨_, hshape, ?_, ?_⟩
  · intro hba
    rw [show ((mainRecord jp opts r).toRecord _ bp ib).bodyAvailable =
      (readBodyPhase jp opts (contentTypeOf r.responseHeaders)
        r).bodyAvailable from rfl] at hba
    rcases readBodyPhase_cases jp opts (contentTypeOf r.responseHeaders) r with
      ⟨hb, hphase⟩ | ⟨b, hb, hsz, hphase⟩ | ⟨b, v, hb, hsz, hjp, hphase⟩ |
      ⟨b, reason, hb, hsz, hjp, hphase⟩
    · rw [hphase]
      rfl
    · rw [hphase] at hba
      exact absurd hba (by simp)
    · rw [hphase] at hba
      exact absurd hba (by simp)
    · rw [hphase] at hba
      exact absurd hba (by simp)
  · intro hba
    rw [show ((mainRecord jp opts r).toRecord _ bp ib).bodyAvailable =
      (readBodyPhase jp opts (contentTypeOf r.responseHeaders)
        r).bodyAvailable from rfl] at hba
    rw [show ((mainRecord jp opts r).toRecord
        (match (readBodyPhase jp opts (contentTypeOf r.responseHeaders)
            r).bodyBuffer with
         | some b => computeHash b
         | none => "") bp ib).bodyHash =
      (match (readBodyPhase jp opts (contentTypeOf r.responseHeaders)
          r).bodyBuffer with
       | some b => computeHash b
       | none => "") from rfl]
    rcases readBodyPhase_cases jp opts (contentTypeOf r.responseHeaders) r with
      ⟨hb, hphase⟩ | ⟨b, hb, hsz, hphase⟩ | ⟨b, v, hb, hsz, hjp, hphase⟩ |
      ⟨b, reason, hb, hsz, hjp, hphase⟩
    · rw [hphase] at hba
      exact absurd hba (by simp)
    · refine ⟨b, hb, ?_⟩
      rw [hphase]
      have hcond : ¬(b.length ≤ opts.maxBodyBytes ∧ (jp b).isSome = true) := by
        rintro ⟨hle, _⟩
        omega
      rw [if_neg hcond]
    · refine ⟨b, hb, ?_⟩
      rw [hphase]
      rw [if_pos ⟨hsz, by rw [hjp]; rfl⟩]
      rfl
    · refine ⟨b, hb, ?_⟩
      rw [hphase]
      have hcond : ¬(b.length ≤ opts.maxBodyBytes ∧ (jp b).isSome = true) := by
        rintro ⟨_, hsome⟩
        rw [hjp] at hsome
        exact absurd hsome (by simp)
      rw [if_neg hcond]

set_option maxRecDepth 400000 in
/-- Witness for the amended C3 theorem at a concrete submission. -/
theorem c3_amended_witness :
    ∃ rec, (handleResponse jsonParseDigits defOpts 0 [] emptyStore
        subGet7).2.2.index = emptyStore.index ++ [rec] ∧
      (rec.bodyAvailable = false → rec.bodyHash = "") ∧
      (rec.bodyAvailable = true → ∃ b, subGet7.body = some b ∧
        rec.bodyHash =
          (if b.length ≤ defOpts.maxBodyBytes ∧ (jsonParseDigits b).isSome
           then sha256hex b else "")) := by
  refine (c3_amended_bodyHash jsonParseDigits defOpts 0 [] emptyStore
    subGet7).resolve_left ?_
  intro h
  have hlen := congrArg List.length h
  revert hlen
  decide

end NetJsonMon

namespace NetJsonMon

/-! ## C5: body file writes -/

/-- A second record persisting the same body with a different status. -/
def c4Base2 : RecordBase := { c4Base with status := 201 }

set_option maxRecDepth 100000 in
/-- C5 counterexample: persisting two records with the same externalized
body makes the store call the full-file write twice on the same
bodies/(hash).json path; the second write rewrites the existing file
rather than leaving it untouched. -/
theorem c5_counterexample_second_record_rewrites_body_file :
    (storeCapture jsonParseDigits 4 false
      (storeCapture jsonParseDigits 4 false emptyStore c4Base (some c4Body))
      c4Base2 (some c4Body)).writeLog.length = 2 ∧
    (storeCapture jsonParseDigits 4 false
      (storeCapture jsonParseDigits 4 false emptyStore c4Base (some c4Body))
      c4Base2 (some c4Body)).writeLog.dedup.length = 1 := by
  exact ⟨by decide, by decide⟩

/-- The file map after an externalizing storeCapture. -/
theorem storeCapture_files_externalized (jp : List Nat → Option Json)
    (ibb : Nat) (st : StoreState) (rec : RecordBase) (b : List Nat)
    (hjs : rec.jsonParseSuccess = true) (hlen : ¬b.length ≤ ibb) :
    (storeCapture jp ibb false st rec (some b)).files =
      match jp b with
      | some parsed =>
        ("bodies/" ++ computeHash b ++ ".json", redactJson parsed) :: st.files
      | none => st.files := by
  unfold storeCapture
  dsimp only
  rw [if_pos hjs, if_neg hlen]
  rcases jp b with _ | parsed
  · rfl
  · rfl

/-- C5 amended: a second record with a byte-identical externalized body
does rewrite the body file, but the rewrite is a full-file write of the
identical content (a deterministic function of the bytes), so no file
content changes; the store never appends. -/
theorem c5_amended_duplicate_write_preserves_file_content
    (jp : List Nat → Option Json) (ibb : Nat) (st : StoreState)
    (rec1 rec2 : RecordBase) (b : List Nat) (p : String)
    (h1 : rec1.jsonParseSuccess = true) (h2 : rec2.jsonParseSuccess = true)
    (hb : ¬b.length ≤ ibb) :
    fileContent (storeCapture jp ibb false
        (storeCapture jp ibb false st rec1 (some b)) rec2 (some b)) p =
      fileContent (storeCapture jp ibb false st rec1 (some b)) p := by
  have hf1 := storeCapture_files_externalized jp ibb st rec1 b h1 hb
  have hf2 := storeCapture_files_externalized jp ibb
    (storeCapture jp ibb false st rec1 (some b)) rec2 b h2 hb
  unfold fileContent
  rw [hf1, hf2, hf1]
  rcases jp b with _ | parsed
  · rfl
  · dsimp only
    by_cases hp : "bodies/" ++ computeHash b ++ ".json" = p
    · rw [List.find?_cons_of_pos _ (by simp [hp]),
          List.find?_cons_of_pos _ (by simp [hp])]
    · rw [List.find?_cons_of_neg _ (by simp [hp]),
          List.find?_cons_of_neg _ (by simp [hp])]

set_option maxRecDepth 100000 in
/-- Witness for the amended C5 theorem at a concrete store state. -/
theorem c5_amended_witness :
    c4Base.jsonParseSuccess = true ∧ c4Base2.jsonParseSuccess = true ∧
    ¬c4Body.length ≤ 4 ∧
    fileContent (storeCapture jsonParseDigits 4 false
        (storeCapture jsonParseDigits 4 false emptyStore c4Base
          (some c4Body)) c4Base2 (some c4Body))
        ("bodies/" ++ computeHash c4Body ++ ".json") =
      fileContent (storeCapture jsonParseDigits 4 false emptyStore c4Base
        (some c4Body)) ("bodies/" ++ computeHash c4Body ++ ".json") :=
  ⟨rfl, rfl, by decide,
   c5_amended_duplicate_write_preserves_file_content jsonParseDigits 4
     emptyStore c4Base c4Base2 c4Body
     ("bodies/" ++ computeHash c4Body ++ ".json") rfl rfl (by decide)⟩

/-! ## C8: avgDepth -/

/-- A journal record of an endpoint, with the given features. -/
def mkDepthRecord (f : Option Features) : CaptureRecord :=
  { timestamp := "2026-01-01T00:00:03.000Z"
    url := "https://api.example.com/depth"
    status := 200
    method := "GET"
    requestHeaders := []
    responseHeaders := []
    contentType := "application/json"
    payloadSize := 2
    bodyAvailable := true
    truncated := false
    omittedReason := none
    jsonParseSuccess := true
    parseError := none
    normalizedUrl := some "https://api.example.com/depth"
    normalizedPath := some "/depth"
    endpointKey := some "GET /depth"
    features := f
    bodyHash := "d1"
    bodyPath := none
    inlineBody := none }

/-- The arithmetic mean of depthEstimate over the records with a
positive depthEstimate, as the claim states it. -/
def claimedAvgDepth (records : List CaptureRecord) : Rat :=
  let ds : List Nat := (records.filterMap
    (fun r => r.features.map Features.depthEstimate)).filter (fun d => 0 < d)
  if ds.length = 0 then 0
  else (List.map (fun d : Nat => (d : Rat)) ds).sum / (ds.length : Rat)

/-- C8 counterexample: an endpoint with one record without features
followed by one record of depth 3 ends with avgDepth 3/2, because the
update divides by the total record count, while the mean over records
with positive depth is 3. -/
theorem c8_counterexample_avgDepth_divides_by_total_count :
    (List.foldl updateAggregate (createEmptyAggregate "GET /depth")
      [mkDepthRecord none,
       mkDepthRecord (some { emptyFeatures with
         isObject := true, depthEstimate := 3 })]).avgDepth = 3 / 2 ∧
    claimedAvgDepth
      [mkDepthRecord none,
       mkDepthRecord (some { emptyFeatures with
         isObject := true, depthEstimate := 3 })] = 3 ∧
    ((3 : Rat) / 2) ≠ 3 := by
  refine ⟨by with_unfolding_all decide, by with_unfolding_all decide,
    by with_unfolding_all decide⟩

theorem updateAggregate_count (agg : EndpointAggregate)
    (record : CaptureRecord) :
    (updateAggregate agg record).count = agg.count + 1 := rfl

theorem updateAggregate_avgDepth_pos (agg : EndpointAggregate)
    (record : CaptureRecord) (f : Features)
    (hf : record.features = some f) (hd : 0 < f.depthEstimate) :
    (updateAggregate agg record).avgDepth =
      (agg.avgDepth * (((agg.count + 1 : Nat) : Rat) - 1) +
        (f.depthEstimate : Rat)) / ((agg.count + 1 : Nat) : Rat) := by
  unfold updateAggregate
  dsimp only
  rw [hf]
  dsimp only
  rw [if_pos hd]

end NetJsonMon

namespace NetJsonMon

/-- The rational sum of the depth estimates carried by records. -/
def depthSum (records : List CaptureRecord) : Rat :=
  let ds : List Nat :=
    records.filterMap (fun r => r.features.map Features.depthEstimate)
  (List.map (fun d : Nat => (d : Rat)) ds).sum

theorem c8_fold_invariant :
    ∀ records : List CaptureRecord,
    (∀ r ∈ records, ∃ f, r.features = some f ∧ 0 < f.depthEstimate) →
    ∀ agg : EndpointAggregate,
      (records.foldl updateAggregate agg).count = agg.count + records.length ∧
      (records.foldl updateAggregate agg).avgDepth *
          ((agg.count + records.length : Nat) : Rat) =
        agg.avgDepth * ((agg.count : Nat) : Rat) + depthSum records := by
  intro records
  induction records with
  | nil =>
    intro _ agg
    refine ⟨by simp, ?_⟩
    simp [depthSum]
  | cons r rs ih =>
    intro h agg
    obtain ⟨f, hf, hd⟩ := h r (by simp)
    have hrs := ih (fun x hx => h x (List.mem_cons_of_mem _ hx))
      (updateAggregate agg r)
    rw [List.foldl_cons]
    have hcount := updateAggregate_count agg r
    constructor
    · rw [hrs.1, hcount, List.length_cons]
      omega
    · have havg := updateAggregate_avgDepth_pos agg r f hf hd
      have hne : (((agg.count + 1 : Nat)) : Rat) ≠ 0 := by
        push_cast
        positivity
      have step : (updateAggregate agg r).avgDepth *
          (((updateAggregate agg r).count : Nat) : Rat) =
          agg.avgDepth * ((agg.count : Nat) : Rat) + (f.depthEstimate : Rat) := by
        rw [havg, hcount, div_mul_cancel₀ _ hne]
        push_cast
        ring
      have hsum : depthSum (r :: rs) = (f.depthEstimate : Rat) + depthSum rs := by
        simp [depthSum, List.filterMap_cons, hf]
      have hnat : agg.count + (r :: rs).length =
          (updateAggregate agg r).count + rs.length := by
        rw [hcount, List.length_cons]
        omega
      rw [hnat, hrs.2, step, hsum]
      ring

theorem c8_depths :
    ∀ records : List CaptureRecord,
    (∀ r ∈ records, ∃ f, r.features = some f ∧ 0 < f.depthEstimate) →
    ((records.filterMap
        (fun r => r.features.map Features.depthEstimate)).filter
      (fun d => 0 < d)) =
        records.filterMap (fun r => r.features.map Features.depthEstimate) ∧
    (records.filterMap
      (fun r => r.features.map Features.depthEstimate)).length =
        records.length := by
  intro records
  induction records with
  | nil => intro _; exact ⟨rfl, rfl⟩
  | cons r rs ih =>
    intro h
    obtain ⟨f, hf, hd⟩ := h r (by simp)
    obtain ⟨ih1, ih2⟩ := ih (fun x hx => h x (List.mem_cons_of_mem _ hx))
    constructor
    · simp only [List.filterMap_cons, hf, Option.map_some']
      rw [List.filter_cons_of_pos (by simpa using hd)]
      rw [ih1]
    · simp only [List.filterMap_cons, hf, Option.map_some', List.length_cons]
      rw [ih2]

/-- C8 amended: avgDepth is updated only on records with a positive
depthEstimate, by avg := (avg * (count - 1) + depth) / count where count
is the total number of records folded so far; it therefore equals the
arithmetic mean of the depth estimates exactly when every record of the
endpoint carries a positive depthEstimate (records without one inflate
the denominator of later updates or leave a stale value). -/
theorem c8_amended_avgDepth_is_mean_when_all_depths_positive
    (key : String) (records : List CaptureRecord)
    (h : ∀ r ∈ records, ∃ f, r.features = some f ∧ 0 < f.depthEstimate) :
    (records.foldl updateAggregate (createEmptyAggregate key)).avgDepth =
      claimedAvgDepth records := by
  obtain ⟨hcount, havg⟩ := c8_fold_invariant records h (createEmptyAggregate key)
  obtain ⟨hfilter, hlen⟩ := c8_depths records h
  cases records with
  | nil =>
    simp [claimedAvgDepth, createEmptyAggregate]
  | cons r rs =>
    have hlen0 : (r :: rs).length ≠ 0 := by simp
    have hcast : ((((r :: rs).length : Nat)) : Rat) ≠ 0 :=
      Nat.cast_ne_zero.mpr hlen0
    have hempty : (createEmptyAggregate key).count = 0 := rfl
    have hempty2 : (createEmptyAggregate key).avgDepth = 0 := rfl
    rw [hempty, hempty2, Nat.zero_add, zero_mul, zero_add] at havg
    have hclaimed : claimedAvgDepth (r :: rs) =
        depthSum (r :: rs) / (((r :: rs).length : Nat) : Rat) := by
      simp only [claimedAvgDepth, depthSum]
      rw [hfilter, hlen, if_neg hlen0]
    rw [hclaimed, eq_div_iff hcast]
    exact havg

/-- A record with a positive depth estimate. -/
def recD3 : CaptureRecord :=
  mkDepthRecord (some { emptyFeatures with isObject := true, depthEstimate := 3 })

/-- Witness for the amended C8 theorem. -/
theorem c8_amended_witness :
    (∀ r ∈ [recD3], ∃ f, r.features = some f ∧ 0 < f.depthEstimate) ∧
    ([recD3].foldl updateAggregate (createEmptyAggregate "GET /depth")).avgDepth =
      claimedAvgDepth [recD3] :=
  ⟨by
    intro r hr
    rw [List.mem_singleton] at hr
    subst hr
    exact ⟨_, rfl, by decide⟩,
   c8_amended_avgDepth_is_mean_when_all_depths_positive "GET /depth" [recD3]
     (by
       intro r hr
       rw [List.mem_singleton] at hr
       subst hr
       exact ⟨_, rfl, by decide⟩)⟩

end NetJsonMon

namespace NetJsonMon

/-! ## C9: redactUrl returns its input unchanged -/

/-- C9: whenever the URL parses and none of its query-parameter names is
in the sensitive set (case-insensitively), redactUrl returns the input
string itself, not a re-serialization; so serialization artifacts can
only appear on URLs that actually had a parameter redacted. -/
theorem c9_redactUrl_identity_when_no_sensitive_param (url : String)
    (u : UrlModel) (h : parseUrl url.data = some u)
    (hs : ∀ kv ∈ u.params, sensitiveUrlParam kv.1 = false) :
    redactUrl url = url := by
  obtain ⟨d⟩ := url
  unfold redactUrl redactUrlCore
  rw [h]
  dsimp only
  have hmod : (u.params.any fun kv => sensitiveUrlParam kv.1) = false := by
    rw [List.any_eq_false]
    intro kv hkv
    rw [hs kv hkv]
    exact Bool.false_ne_true
  rw [hmod]
  rfl

/-- Witness for C9 at a concrete two-parameter URL. -/
theorem c9_witness :
    ∃ u, parseUrl ("https://api.example.com/items?page=1&sort=desc" :
        String).data = some u ∧
      (∀ kv ∈ u.params, sensitiveUrlParam kv.1 = false) ∧
      redactUrl "https://api.example.com/items?page=1&sort=desc" =
        "https://api.example.com/items?page=1&sort=desc" :=
  ⟨⟨"https".data, "api.example.com".data, "/items".data,
    [("page".data, "1".data), ("sort".data, "desc".data)], []⟩,
   by decide, by decide,
   c9_redactUrl_identity_when_no_sensitive_param
     "https://api.example.com/items?page=1&sort=desc"
     ⟨"https".data, "api.example.com".data, "/items".data,
      [("page".data, "1".data), ("sort".data, "desc".data)], []⟩
     (by decide) (by decide)⟩

end NetJsonMon

namespace NetJsonMon

/-! ## C10: bounded prefixes in feature extraction -/

/-- Truncating below each depth level leaves leafness unchanged. -/
theorem isLeafValue_pathTrunc (d : Nat) (v : Json) :
    isLeafValue (pathTrunc d v) = isLeafValue v := by
  cases d with
  | zero => rfl
  | succ d =>
    cases v with
    | arr l => cases l <;> rfl
    | null => rfl
    | bool b => rfl
    | num n => rfl
    | str s => rfl
    | obj l => rfl

/-- The object-key loop of extractPaths is blind to anything the
per-value truncation removes. -/
theorem extractPathsObjLoop_trunc (d : Nat)
    (ih : ∀ (j : Json) (budget : Nat) (pre : String),
      extractPaths d (pathTrunc d j) budget pre = extractPaths d j budget pre) :
    ∀ (l : List (String × Json)) (budget : Nat) (pre : String),
      extractPathsObjLoop (fun v b p => extractPaths d v b p)
        (l.map (fun kv => (kv.1, pathTrunc d kv.2))) budget pre =
      extractPathsObjLoop (fun v b p => extractPaths d v b p) l budget pre := by
  intro l
  induction l with
  | nil => intro budget pre; rfl
  | cons kv rest ihl =>
    intro budget pre
    obtain ⟨k, v⟩ := kv
    simp only [List.map_cons, extractPathsObjLoop]
    by_cases hb : budget = 0
    · rw [if_pos hb, if_pos hb]
    · rw [if_neg hb, if_neg hb, isLeafValue_pathTrunc]
      by_cases hleaf : isLeafValue v = true
      · rw [if_pos hleaf, if_pos hleaf]
        simp only [ihl]
      · rw [if_neg hleaf, if_neg hleaf]
        simp only [ih, ihl]

/-- extractPaths only looks at element 0 of arrays and the first 10 keys
of objects, level by level down to the depth cap. -/
theorem extractPaths_pathTrunc :
    ∀ (d : Nat) (j : Json) (budget : Nat) (pre : String),
      extractPaths d (pathTrunc d j) budget pre =
        extractPaths d j budget pre := by
  intro d
  induction d with
  | zero => intro j budget pre; rfl
  | succ d ih =>
    intro j budget pre
    cases j with
    | null => rfl
    | bool b => rfl
    | num n => rfl
    | str s => rfl
    | arr l =>
      cases l with
      | nil => rfl
      | cons x xs =>
        simp only [pathTrunc, extractPaths]
        simp only [ih]
    | obj entries =>
      simp only [pathTrunc, extractPaths]
      rw [List.take_of_length_le
        (by rw [List.length_map, List.length_take]; exact Nat.min_le_left _ _)]
      simp only [extractPathsObjLoop_trunc d ih]

/-- estimateDepth only looks at the first 5 elements of arrays and the
first 10 keys of objects, level by level down to the depth cap. -/
theorem estimateDepth_depthTrunc :
    ∀ (d : Nat) (j : Json),
      estimateDepth d (depthTrunc d j) = estimateDepth d j := by
  intro d
  induction d with
  | zero => intro j; rfl
  | succ d ih =>
    intro j
    cases j with
    | null => rfl
    | bool b => rfl
    | num n => rfl
    | str s => rfl
    | arr l =>
      simp only [depthTrunc, estimateDepth]
      rw [List.take_of_length_le
        (by rw [List.length_map, List.length_take]; exact Nat.min_le_left _ _)]
      rw [List.map_map]
      congr 2
      exact List.map_congr_left (fun x _ => ih x)
    | obj entries =>
      simp only [depthTrunc, estimateDepth]
      rw [List.take_of_length_le
        (by rw [List.length_map, List.length_take]; exact Nat.min_le_left _ _)]
      rw [List.map_map]
      congr 2
      exact List.map_congr_left (fun kv _ => ih kv.2)

/-- C10: extractFeatures is invariant in its maxKeys argument, and both
depth estimation and sample-path extraction are invariant under
truncating every value to the prefixes they examine (5 array elements
and 10 object keys per level for the depth estimate; element 0 and 10
object keys per level for the sample paths), so data beyond those
prefixes never affects depthEstimate or samplePaths. -/
theorem c10_maxKeys_ignored_and_fixed_prefixes :
    (∀ (body : Json) (maxDepth k1 k2 : Nat),
      extractFeatures body maxDepth k1 = extractFeatures body maxDepth k2) ∧
    (∀ (d : Nat) (j : Json),
      estimateDepth d (depthTrunc d j) = estimateDepth d j) ∧
    (∀ (d : Nat) (j : Json) (budget : Nat) (pre : String),
      extractPaths d (pathTrunc d j) budget pre =
        extractPaths d j budget pre) :=
  ⟨fun _ _ _ _ => rfl, estimateDepth_depthTrunc, extractPaths_pathTrunc⟩

end NetJsonMon

namespace NetJsonMon

/-! ## C7: ordering of the scored endpoints -/

/-- A journal record for the scoring scenarios: a parse-successful
capture of the given endpoint key and payload size, with no features. -/
def mkScoreRecord (key : String) (size : Nat) : CaptureRecord :=
  { timestamp := "2026-01-01T00:00:00.000Z"
    url := "https://api.example.com/x"
    status := 200
    method := "GET"
    requestHeaders := []
    responseHeaders := [("content-type", "application/json")]
    contentType := "application/json"
    payloadSize := size
    bodyAvailable := true
    truncated := false
    omittedReason := none
    jsonParseSuccess := true
    parseError := none
    normalizedUrl := none
    normalizedPath := none
    endpointKey := some key
    features := none
    bodyHash := ""
    bodyPath := none
    inlineBody := none }

/-- Seven captures of one endpoint with payload 500 bytes and eight of
another with payload 499 bytes: scores 0.315 and 0.31497 differ by
0.00003, inside the 0.001 near-tie band of the comparator. -/
def c7Journal : List CaptureRecord :=
  List.replicate 7 (mkScoreRecord "GET /alpha" 500) ++
  List.replicate 8 (mkScoreRecord "GET /beta" 499)

/-- Boolean adjacency check used to evaluate Chain' facts. -/
def chainB (le : α → α → Bool) : List α → Bool
  | [] => true
  | [_] => true
  | a :: b :: l => le a b && chainB le (b :: l)

theorem chainB_iff (le : α → α → Bool) :
    ∀ l : List α, chainB le l = true ↔
      List.Chain' (fun a b => le a b = true) l := by
  intro l
  induction l with
  | nil => simp [chainB]
  | cons a t ih =>
    cases t with
    | nil => simp [chainB]
    | cons b t2 =>
      rw [List.chain'_cons, ← ih]
      simp [chainB]

set_option maxRecDepth 100000 in
/-- C7 counterexample: the summary of c7Journal orders the
lower-scoring endpoint (score 0.31497, count 8) before the
higher-scoring one (score 0.315, count 7), because the comparator
treats scores within 0.001 of each other as ties broken by count even
when they are not equal; so the output has an adjacent pair whose
earlier score is strictly below the later score. -/
theorem c7_counterexample_near_tie_breaks_descending_order :
    ∃ s, generateSummary c7Journal = some s ∧
      ¬ List.Chain' (fun a b : ScoredEndpoint => b.score ≤ a.score)
          s.endpoints := by
  refine ⟨_, rfl, ?_⟩
  intro hchain
  have hmono := List.Chain'.imp
    (fun (a b : ScoredEndpoint) (h : b.score ≤ a.score) => decide_eq_true h)
    hchain
  have hb := (chainB_iff
    (fun a b : ScoredEndpoint => decide (b.score ≤ a.score)) _).mpr hmono
  exact absurd hb (by with_unfolding_all decide)

/-- C7 amended: in the sorted output (all of it, in particular its
first 20 entries embedded in summary.json), every adjacent pair either
has scores within 0.001 of each other and counts in descending order,
or scores at least 0.001 apart in strictly descending order; and the
output is a permutation-of-membership of the input.  Scores may thus
ascend across an adjacent pair, but only by less than 0.001. -/
theorem c7_amended_sorted_up_to_near_ties
    (endpoints : List ScoredEndpoint) :
    List.Chain' (fun a b =>
        (|a.score - b.score| < 1 / 1000 ∧ b.count ≤ a.count) ∨
        (1 / 1000 ≤ |a.score - b.score| ∧ b.score < a.score))
      (sortByScore endpoints) ∧
    List.Chain' (fun a b =>
        (|a.score - b.score| < 1 / 1000 ∧ b.count ≤ a.count) ∨
        (1 / 1000 ≤ |a.score - b.score| ∧ b.score < a.score))
      ((sortByScore endpoints).take 20) ∧
    (∀ e, e ∈ sortByScore endpoints ↔ e ∈ endpoints) := by
  have total : ∀ a b : ScoredEndpoint,
      scoreCmpLe a b = true ∨ scoreCmpLe b a = true := by
    intro a b
    unfold scoreCmpLe
    by_cases h : |a.score - b.score| < 1 / 1000
    · have h2 : |b.score - a.score| < 1 / 1000 := by rwa [abs_sub_comm]
      rw [if_pos h, if_pos h2]
      rcases le_total b.count a.count with hc | hc
      · exact Or.inl (decide_eq_true hc)
      · exact Or.inr (decide_eq_true hc)
    · have h2 : ¬|b.score - a.score| < 1 / 1000 := by rwa [abs_sub_comm]
      rw [if_neg h, if_neg h2]
      rcases le_total b.score a.score with hs | hs
      · exact Or.inl (decide_eq_true hs)
      · exact Or.inr (decide_eq_true hs)
  have himp : ∀ a b : ScoredEndpoint, scoreCmpLe a b = true →
      (|a.score - b.score| < 1 / 1000 ∧ b.count ≤ a.count) ∨
      (1 / 1000 ≤ |a.score - b.score| ∧ b.score < a.score) := by
    intro a b h
    unfold scoreCmpLe at h
    by_cases hd : |a.score - b.score| < 1 / 1000
    · rw [if_pos hd] at h
      exact Or.inl ⟨hd, of_decide_eq_true h⟩
    · rw [if_neg hd] at h
      push_neg at hd
      have hle : b.score ≤ a.score := of_decide_eq_true h
      have hne : b.score ≠ a.score := by
        intro he
        rw [he, sub_self, abs_zero] at hd
        norm_num at hd
      exact Or.inr ⟨hd, lt_of_le_of_ne hle hne⟩
  have hchain := chain'_insertionSortB scoreCmpLe total endpoints
  have hR := List.Chain'.imp himp hchain
  exact ⟨hR, hR.take 20, fun e => mem_insertionSortB scoreCmpLe e endpoints⟩

end NetJsonMon

namespace NetJsonMon

/-! ## C6: normalizeUrl idempotence.  Membership facts about the URL
splitting primitives. -/

theorem splitFirst_fst_not_mem (sep : Char) (l : List Char) :
    sep ∉ (splitFirst sep l).1 := by
  induction l with
  | nil => simp [splitFirst]
  | cons c rest ih =>
    simp only [splitFirst]
    by_cases h : c = sep
    · rw [if_pos h]
      simp
    · rw [if_neg h]
      rcases hsp : splitFirst sep rest with ⟨b, a⟩
      rw [hsp] at ih
      simp only [List.mem_cons, not_or]
      exact ⟨fun he => h he.symm, ih⟩

theorem splitFirst_fst_mem {sep c : Char} {l : List Char}
    (h : c ∈ (splitFirst sep l).1) : c ∈ l := by
  induction l with
  | nil => simp [splitFirst] at h
  | cons d rest ih =>
    simp only [splitFirst] at h
    by_cases hd : d = sep
    · rw [if_pos hd] at h
      simp at h
    · rw [if_neg hd] at h
      rcases hsp : splitFirst sep rest with ⟨b, a⟩
      rw [hsp] at h ih
      simp only [List.mem_cons] at h
      rcases h with h | h
      · simp [h]
      · exact List.mem_cons_of_mem _ (ih h)

theorem splitFirst_snd_mem {sep c : Char} {l r : List Char}
    (h : (splitFirst sep l).2 = some r) (hc : c ∈ r) : c ∈ l := by
  induction l with
  | nil => simp [splitFirst] at h
  | cons d rest ih =>
    simp only [splitFirst] at h
    by_cases hd : d = sep
    · rw [if_pos hd] at h
      simp only [Option.some.injEq] at h
      subst h
      exact List.mem_cons_of_mem _ hc
    · rw [if_neg hd] at h
      rcases hsp : splitFirst sep rest with ⟨b, a⟩
      rw [hsp] at h ih
      exact List.mem_cons_of_mem _ (ih h)

theorem splitChar_mem_mem {sep : Char} :
    ∀ {l : List Char} {p : List Char}, p ∈ splitChar sep l →
      ∀ {c : Char}, c ∈ p → c ∈ l := by
  intro l
  induction l with
  | nil =>
    intro p hp c hc
    simp [splitChar] at hp
    subst hp
    simp at hc
  | cons d rest ih =>
    intro p hp c hc
    rcases hsp : splitChar sep rest with _ | ⟨q, qs⟩
    · exact absurd hsp (splitChar_ne_nil sep rest)
    · simp only [splitChar, hsp] at hp
      have ihq : ∀ {r : List Char}, r ∈ q :: qs → ∀ {c : Char}, c ∈ r →
          c ∈ rest := fun {r} hr {c} hcr => ih (by rw [hsp]; exact hr) hcr
      by_cases hd : d = sep
      · rw [if_pos hd] at hp
        rcases List.mem_cons.mp hp with heq | hp2
        · subst heq
          simp at hc
        · exact List.mem_cons_of_mem _ (ihq hp2 hc)
      · rw [if_neg hd] at hp
        rcases List.mem_cons.mp hp with heq | hp2
        · subst heq
          rcases List.mem_cons.mp hc with heq2 | hc2
          · subst heq2
            exact List.mem_cons_self _ _
          · exact List.mem_cons_of_mem _ (ihq (List.mem_cons_self q qs) hc2)
        · exact List.mem_cons_of_mem _
            (ihq (List.mem_cons_of_mem q hp2) hc)

theorem splitChar_sep_not_mem (sep : Char) :
    ∀ (l : List Char), ∀ p ∈ splitChar sep l, sep ∉ p := by
  intro l
  induction l with
  | nil =>
    intro p hp
    simp [splitChar] at hp
    subst hp
    simp
  | cons d rest ih =>
    intro p hp
    rcases hsp : splitChar sep rest with _ | ⟨q, qs⟩
    · exact absurd hsp (splitChar_ne_nil sep rest)
    · simp only [splitChar, hsp] at hp
      have ihq : ∀ r ∈ q :: qs, sep ∉ r :=
        fun r hr => ih r (by rw [hsp]; exact hr)
      by_cases hd : d = sep
      · rw [if_pos hd] at hp
        rcases List.mem_cons.mp hp with heq | hp2
        · subst heq
          simp
        · exact ihq p hp2
      · rw [if_neg hd] at hp
        rcases List.mem_cons.mp hp with heq | hp2
        · subst heq
          simp only [List.mem_cons, not_or]
          exact ⟨fun he => hd he.symm, ihq q (List.mem_cons_self q qs)⟩
        · exact ihq p (List.mem_cons_of_mem q hp2)

theorem joinChar_mem {sep : Char} :
    ∀ {pieces : List (List Char)} {c : Char}, c ∈ joinChar sep pieces →
      c = sep ∨ ∃ p ∈ pieces, c ∈ p := by
  intro pieces
  induction pieces with
  | nil =>
    intro c hc
    simp [joinChar] at hc
  | cons p ps ih =>
    intro c hc
    cases ps with
    | nil =>
      simp only [joinChar] at hc
      exact Or.inr ⟨p, by simp, hc⟩
    | cons q qs =>
      have hj : joinChar sep (p :: q :: qs) = p ++ sep :: joinChar sep (q :: qs) := rfl
      rw [hj] at hc
      rcases List.mem_append.mp hc with h | h
      · exact Or.inr ⟨p, by simp, h⟩
      · rcases List.mem_cons.mp h with heq | h2
        · exact Or.inl heq
        · rcases ih h2 with h3 | ⟨r, hr, hcr⟩
          · exact Or.inl h3
          · exact Or.inr ⟨r, List.mem_cons_of_mem _ hr, hcr⟩

theorem schemeOk_not_mem {s : List Char} (h : schemeOk s = true) :
    ':' ∉ s ∧ '/' ∉ s ∧ '?' ∉ s ∧ '#' ∉ s := by
  unfold schemeOk at h
  rw [Bool.and_eq_true] at h
  have hall := List.all_eq_true.mp h.2
  refine ⟨fun hm => ?_, fun hm => ?_, fun hm => ?_, fun hm => ?_⟩ <;>
    exact absurd (hall _ hm) (by decide)

end NetJsonMon

namespace NetJsonMon

/-! ## C6: query parameter round trips -/

theorem parseParams_facts {q : List Char} (hq : '#' ∉ q) :
    ∀ kv ∈ parseParams q, '&' ∉ kv.1 ∧ '=' ∉ kv.1 ∧ '#' ∉ kv.1 ∧
      '&' ∉ kv.2 ∧ '#' ∉ kv.2 := by
  intro kv hkv
  unfold parseParams at hkv
  by_cases hqe : q.isEmpty = true
  · rw [if_pos hqe] at hkv
    simp at hkv
  · rw [if_neg hqe] at hkv
    rcases List.mem_map.mp hkv with ⟨piece, hpiece, hkveq⟩
    have hpiece2 : piece ∈ splitChar '&' q := List.mem_of_mem_filter hpiece
    have hamp : '&' ∉ piece := splitChar_sep_not_mem '&' q piece hpiece2
    have hsubq : ∀ {c : Char}, c ∈ piece → c ∈ q :=
      fun hc => splitChar_mem_mem hpiece2 hc
    rcases hsp : splitFirst '=' piece with ⟨k, ov⟩
    have hk1 : '=' ∉ k := by
      have h2 := splitFirst_fst_not_mem '=' piece
      rw [hsp] at h2
      exact h2
    have hkmem : ∀ {c : Char}, c ∈ k → c ∈ piece := fun {c} hc =>
      splitFirst_fst_mem (by rw [hsp]; exact hc)
    simp only [hsp] at hkveq
    rcases ov with _ | v
    · simp only at hkveq
      subst hkveq
      exact ⟨fun hm => hamp (hkmem hm), hk1,
        fun hm => hq (hsubq (hkmem hm)), by simp, by simp⟩
    · simp only at hkveq
      subst hkveq
      have hvmem : ∀ {c : Char}, c ∈ v → c ∈ piece := fun {c} hc =>
        splitFirst_snd_mem (by rw [hsp]) hc
      exact ⟨fun hm => hamp (hkmem hm), hk1,
        fun hm => hq (hsubq (hkmem hm)),
        fun hm => hamp (hvmem hm), fun hm => hq (hsubq (hvmem hm))⟩

theorem serializeParams_piece_ne_nil (kv : List Char × List Char) :
    kv.1 ++ '=' :: kv.2 ≠ [] := by
  rcases kv with ⟨k, v⟩
  cases k <;> simp

theorem parseParams_serializeParams {params : List (List Char × List Char)}
    (hne : params ≠ [])
    (h : ∀ kv ∈ params, '&' ∉ kv.1 ∧ '=' ∉ kv.1 ∧ '&' ∉ kv.2) :
    parseParams (serializeParams params) = params := by
  have hpne : params.map (fun kv => kv.1 ++ '=' :: kv.2) ≠ [] := by
    intro he
    exact hne (List.map_eq_nil_iff.mp he)
  have hpsep : ∀ p ∈ params.map (fun kv => kv.1 ++ '=' :: kv.2), '&' ∉ p := by
    intro p hp
    rcases List.mem_map.mp hp with ⟨kv, hkv, rfl⟩
    intro hm
    rcases List.mem_append.mp hm with hm | hm
    · exact (h kv hkv).1 hm
    · rcases List.mem_cons.mp hm with he | hm
      · exact absurd he (by decide)
      · exact (h kv hkv).2.2 hm
  have hJ : joinChar '&' (params.map (fun kv => kv.1 ++ '=' :: kv.2)) ≠ [] := by
    rcases params with _ | ⟨kv, rest⟩
    · exact absurd rfl hne
    · rcases hm : rest.map (fun kv => kv.1 ++ '=' :: kv.2) with _ | ⟨p2, ps2⟩
      · simp only [List.map_cons, hm, joinChar]
        exact serializeParams_piece_ne_nil kv
      · simp only [List.map_cons, hm, joinChar]
        intro habs
        rcases List.append_eq_nil.mp habs with ⟨h1, h2⟩
        exact serializeParams_piece_ne_nil kv h1
  unfold parseParams serializeParams
  rw [if_neg (by simp [hJ])]
  rw [splitChar_joinChar hpne hpsep]
  rw [List.filter_eq_self.mpr (by
    intro p hp
    rcases List.mem_map.mp hp with ⟨kv, hkv, rfl⟩
    simp [serializeParams_piece_ne_nil kv])]
  rw [List.map_map]
  have hpt : ∀ kv ∈ params,
      ((fun piece =>
          match splitFirst '=' piece with
          | (k, some v) => (k, v)
          | (k, none) => (k, [])) ∘ (fun kv => kv.1 ++ '=' :: kv.2)) kv =
        kv := by
    intro kv hkv
    simp only [Function.comp_apply]
    rw [splitFirst_append_sep (h kv hkv).2.1]
  rw [List.map_congr_left hpt]
  simp

end NetJsonMon

namespace NetJsonMon

/-! ## C6: path normalization -/

theorem isIdSegment_idToken : isIdSegment idToken = false := by decide

theorem isIdSegment_nil : isIdSegment [] = false := by decide

/-- Normalization maps each segment to a slash-free segment. -/
theorem normalizePathSegmentsCore_idem (pp : List Char) :
    normalizePathSegmentsCore (normalizePathSegmentsCore pp) =
      normalizePathSegmentsCore pp := by
  unfold normalizePathSegmentsCore
  have hne : (splitChar '/' pp).map
      (fun seg => if isIdSegment seg then idToken else seg) ≠ [] := by
    intro he
    exact splitChar_ne_nil '/' pp (List.map_eq_nil_iff.mp he)
  have hsep : ∀ p ∈ (splitChar '/' pp).map
      (fun seg => if isIdSegment seg then idToken else seg), '/' ∉ p := by
    intro p hp
    rcases List.mem_map.mp hp with ⟨seg, hseg, rfl⟩
    by_cases hid : isIdSegment seg = true
    · rw [if_pos hid]
      decide
    · rw [if_neg hid]
      exact splitChar_sep_not_mem '/' pp seg hseg
  rw [splitChar_joinChar hne hsep, List.map_map]
  congr 1
  refine List.map_congr_left ?_
  intro seg _
  by_cases hid : isIdSegment seg = true
  · simp [hid, isIdSegment_idToken]
  · simp [hid]

/-- On a slash-prefixed path free of query and fragment characters, the
normalized path is again slash-prefixed and free of those characters. -/
theorem normalizePathSegmentsCore_shape {t : List Char}
    (h1 : '?' ∉ t) (h2 : '#' ∉ t) :
    ∃ t2, normalizePathSegmentsCore ('/' :: t) = '/' :: t2 ∧
      '?' ∉ t2 ∧ '#' ∉ t2 := by
  unfold normalizePathSegmentsCore
  rcases hsp : splitChar '/' t with _ | ⟨q, qs⟩
  · exact absurd hsp (splitChar_ne_nil '/' t)
  · have hsc : splitChar '/' ('/' :: t) = [] :: q :: qs := by
      simp [splitChar, hsp]
    rw [hsc]
    simp only [List.map_cons, isIdSegment_nil, Bool.false_eq_true, if_false]
    have hmem : ∀ {c : Char},
        c ∈ joinChar '/' (((q :: qs).map
          (fun seg => if isIdSegment seg then idToken else seg))) →
        c = '/' ∨ c ∈ idToken ∨ c ∈ t := by
      intro c hc
      rcases joinChar_mem hc with he | ⟨pc, hpc, hcpc⟩
      · exact Or.inl he
      · rcases List.mem_map.mp hpc with ⟨seg, hseg, rfl⟩
        by_cases hid : isIdSegment seg = true
        · rw [if_pos hid] at hcpc
          exact Or.inr (Or.inl hcpc)
        · rw [if_neg hid] at hcpc
          have hseg2 : seg ∈ splitChar '/' t := by
            rw [hsp]
            exact hseg
          exact Or.inr (Or.inr (splitChar_mem_mem hseg2 hcpc))
    refine ⟨joinChar '/' (((q :: qs).map
      (fun seg => if isIdSegment seg then idToken else seg))), ?_, ?_, ?_⟩
    · rcases hm : (q :: qs).map
          (fun seg => if isIdSegment seg then idToken else seg) with _ | ⟨p2, ps2⟩
      · simp at hm
      · simp only [List.map_cons] at hm
        rw [hm]
        rfl
    · intro hc
      rcases hmem hc with he | he | he
      · exact absurd he (by decide)
      · exact absurd he (by decide)
      · exact h1 he
    · intro hc
      rcases hmem hc with he | he | he
      · exact absurd he (by decide)
      · exact absurd he (by decide)
      · exact h2 he

end NetJsonMon

namespace NetJsonMon

/-! ## C6: facts every successful parse guarantees about the components -/

theorem parseUrl_facts {s : List Char} {u : UrlModel}
    (h : parseUrl s = some u) :
    schemeOk u.scheme = true ∧
    u.host ≠ [] ∧ '/' ∉ u.host ∧ '?' ∉ u.host ∧ '#' ∉ u.host ∧
    (∃ p, u.pathname = '/' :: p ∧ '?' ∉ p ∧ '#' ∉ p) ∧
    (∀ kv ∈ u.params, '&' ∉ kv.1 ∧ '=' ∉ kv.1 ∧ '#' ∉ kv.1 ∧
      '&' ∉ kv.2 ∧ '#' ∉ kv.2) := by
  unfold parseUrl at h
  rcases hbh : splitFirst '#' s with ⟨bh1, bh2⟩
  rcases hbq : splitFirst '?' bh1 with ⟨bq1, bq2⟩
  rcases hsc : splitFirst ':' bq1 with ⟨scheme, orest⟩
  simp only [hbh, hbq, hsc] at h
  have hh1 : '#' ∉ bh1 := by
    have h2 := splitFirst_fst_not_mem '#' s
    rw [hbh] at h2
    exact h2
  have hq1 : '?' ∉ bq1 := by
    have h2 := splitFirst_fst_not_mem '?' bh1
    rw [hbq] at h2
    exact h2
  have hbq1bh1 : ∀ {c : Char}, c ∈ bq1 → c ∈ bh1 := fun {c} hc =>
    splitFirst_fst_mem (by rw [hbq]; exact hc)
  rcases orest with _ | rest
  · simp at h
  · dsimp only at h
    by_cases hok : schemeOk scheme = true
    · rw [if_pos hok] at h
      split at h
      · rename_i hostAndPath
        have hhap : ∀ {c : Char}, c ∈ hostAndPath → c ∈ bq1 := by
          intro c hc
          exact splitFirst_snd_mem (by rw [hsc])
            (List.mem_cons_of_mem _ (List.mem_cons_of_mem _ hc))
        rcases hhp : splitFirst '/' hostAndPath with ⟨host, op⟩
        simp only [hhp] at h
        by_cases hemp : host.isEmpty = true
        · rw [if_pos hemp] at h
          exact absurd h (by simp)
        · rw [if_neg hemp] at h
          have hhostne : host ≠ [] := fun hn => hemp (by rw [hn]; rfl)
          have hhostslash : '/' ∉ host := by
            have h2 := splitFirst_fst_not_mem '/' hostAndPath
            rw [hhp] at h2
            exact h2
          have hhost_mem : ∀ {c : Char}, c ∈ host → c ∈ hostAndPath :=
            fun {c} hc => splitFirst_fst_mem (by rw [hhp]; exact hc)
          have hparamsf : ∀ kv ∈ parseParams (bq2.getD []),
              '&' ∉ kv.1 ∧ '=' ∉ kv.1 ∧ '#' ∉ kv.1 ∧
              '&' ∉ kv.2 ∧ '#' ∉ kv.2 := by
            rcases bq2 with _ | qq
            · exact parseParams_facts (by simp)
            · refine parseParams_facts ?_
              intro hm
              exact hh1 (splitFirst_snd_mem (by rw [hbq]; rfl) hm)
          rcases op with _ | p
          · dsimp only at h
            rw [Option.some_inj] at h
            subst h
            refine ⟨hok, hhostne, hhostslash,
              fun hm => hq1 (hhap (hhost_mem hm)),
              fun hm => hh1 (hbq1bh1 (hhap (hhost_mem hm))),
              ⟨[], rfl, by simp, by simp⟩, hparamsf⟩
          · dsimp only at h
            rw [Option.some_inj] at h
            subst h
            have hp_mem : ∀ {c : Char}, c ∈ p → c ∈ hostAndPath :=
              fun {c} hc => splitFirst_snd_mem (by rw [hhp]) hc
            refine ⟨hok, hhostne, hhostslash,
              fun hm => hq1 (hhap (hhost_mem hm)),
              fun hm => hh1 (hbq1bh1 (hhap (hhost_mem hm))),
              ⟨p, rfl, fun hm => hq1 (hhap (hp_mem hm)),
                fun hm => hh1 (hbq1bh1 (hhap (hp_mem hm)))⟩, hparamsf⟩
      · exact absurd h (by simp)
    · rw [if_neg hok] at h
      exact absurd h (by simp)

end NetJsonMon

namespace NetJsonMon

/-! ## C6: reparsing a rebuilt URL -/

theorem parseUrl_rebuild {scheme host p : List Char}
    {params : List (List Char × List Char)}
    (hok : schemeOk scheme = true)
    (hhostne : host ≠ []) (hhost1 : '/' ∉ host) (hhost2 : '?' ∉ host)
    (hhost3 : '#' ∉ host)
    (hp1 : '?' ∉ p) (hp2 : '#' ∉ p)
    (hparams : ∀ kv ∈ params, '&' ∉ kv.1 ∧ '=' ∉ kv.1 ∧ '#' ∉ kv.1 ∧
      '&' ∉ kv.2 ∧ '#' ∉ kv.2) :
    parseUrl (serializeUrl ⟨scheme, host, '/' :: p, params, []⟩) =
      some ⟨scheme, host, '/' :: p, params, []⟩ := by
  obtain ⟨hs1, hs2, hs3, hs4⟩ := schemeOk_not_mem hok
  have hie : host.isEmpty = false := by
    cases host with
    | nil => exact absurd rfl hhostne
    | cons a t => rfl
  have hserh : '#' ∉ serializeParams params := by
    intro hm
    unfold serializeParams at hm
    rcases joinChar_mem hm with he | ⟨pc, hpc, hcpc⟩
    · exact absurd he (by decide)
    · rcases List.mem_map.mp hpc with ⟨kv, hkv, rfl⟩
      rcases List.mem_append.mp hcpc with hm2 | hm2
      · exact (hparams kv hkv).2.2.1 hm2
      · rcases List.mem_cons.mp hm2 with he | hm2
        · exact absurd he (by decide)
        · exact (hparams kv hkv).2.2.2.2 hm2
  by_cases hpe : params = []
  · subst hpe
    have hser : serializeUrl ⟨scheme, host, '/' :: p, [], []⟩ =
        scheme ++ ':' :: '/' :: '/' :: (host ++ '/' :: p) := by
      simp [serializeUrl, originOf, searchOf]
    have hw : '#' ∉ scheme ++ ':' :: '/' :: '/' :: (host ++ '/' :: p) := by
      intro hm
      rcases List.mem_append.mp hm with hm | hm
      · exact hs4 hm
      · rcases List.mem_cons.mp hm with he | hm
        · exact absurd he (by decide)
        · rcases List.mem_cons.mp hm with he | hm
          · exact absurd he (by decide)
          · rcases List.mem_cons.mp hm with he | hm
            · exact absurd he (by decide)
            · rcases List.mem_append.mp hm with hm | hm
              · exact hhost3 hm
              · rcases List.mem_cons.mp hm with he | hm
                · exact absurd he (by decide)
                · exact hp2 hm
    have hwq : '?' ∉ scheme ++ ':' :: '/' :: '/' :: (host ++ '/' :: p) := by
      intro hm
      rcases List.mem_append.mp hm with hm | hm
      · exact hs3 hm
      · rcases List.mem_cons.mp hm with he | hm
        · exact absurd he (by decide)
        · rcases List.mem_cons.mp hm with he | hm
          · exact absurd he (by decide)
          · rcases List.mem_cons.mp hm with he | hm
            · exact absurd he (by decide)
            · rcases List.mem_append.mp hm with hm | hm
              · exact hhost2 hm
              · rcases List.mem_cons.mp hm with he | hm
                · exact absurd he (by decide)
                · exact hp1 hm
    rw [hser]
    unfold parseUrl
    rw [splitFirst_of_not_mem hw]
    dsimp only
    rw [splitFirst_of_not_mem hwq]
    dsimp only
    rw [splitFirst_append_sep hs1]
    dsimp only
    rw [if_pos hok]
    show (if (splitFirst '/' (host ++ '/' :: p)).1.isEmpty = true then none
        else some (⟨scheme, (splitFirst '/' (host ++ '/' :: p)).1,
          (match (splitFirst '/' (host ++ '/' :: p)).2 with
           | some q => '/' :: q
           | none => ['/']),
          parseParams [], []⟩ : UrlModel)) =
      some (⟨scheme, host, '/' :: p, [], []⟩ : UrlModel)
    rw [splitFirst_append_sep hhost1]
    rw [if_neg (by simp [hie])]
    rfl
  · have hsearch : searchOf params = '?' :: serializeParams params := by
      unfold searchOf
      rw [if_neg (by simpa using hpe)]
    have hser : serializeUrl ⟨scheme, host, '/' :: p, params, []⟩ =
        scheme ++ ':' :: '/' :: '/' ::
          (host ++ '/' :: (p ++ '?' :: serializeParams params)) := by
      simp [serializeUrl, originOf, hsearch]
    have hw : '#' ∉ scheme ++ ':' :: '/' :: '/' ::
        (host ++ '/' :: (p ++ '?' :: serializeParams params)) := by
      intro hm
      rcases List.mem_append.mp hm with hm | hm
      · exact hs4 hm
      · rcases List.mem_cons.mp hm with he | hm
        · exact absurd he (by decide)
        · rcases List.mem_cons.mp hm with he | hm
          · exact absurd he (by decide)
          · rcases List.mem_cons.mp hm with he | hm
            · exact absurd he (by decide)
            · rcases List.mem_append.mp hm with hm | hm
              · exact hhost3 hm
              · rcases List.mem_cons.mp hm with he | hm
                · exact absurd he (by decide)
                · rcases List.mem_append.mp hm with hm | hm
                  · exact hp2 hm
                  · rcases List.mem_cons.mp hm with he | hm
                    · exact absurd he (by decide)
                    · exact hserh hm
    have hwq : '?' ∉ scheme ++ ':' :: '/' :: '/' :: (host ++ '/' :: p) := by
      intro hm
      rcases List.mem_append.mp hm with hm | hm
      · exact hs3 hm
      · rcases List.mem_cons.mp hm with he | hm
        · exact absurd he (by decide)
        · rcases List.mem_cons.mp hm with he | hm
          · exact absurd he (by decide)
          · rcases List.mem_cons.mp hm with he | hm
            · exact absurd he (by decide)
            · rcases List.mem_append.mp hm with hm | hm
              · exact hhost2 hm
              · rcases List.mem_cons.mp hm with he | hm
                · exact absurd he (by decide)
                · exact hp1 hm
    have hassoc : scheme ++ ':' :: '/' :: '/' ::
        (host ++ '/' :: (p ++ '?' :: serializeParams params)) =
        (scheme ++ ':' :: '/' :: '/' :: (host ++ '/' :: p)) ++
          '?' :: serializeParams params := by
      simp
    rw [hser]
    unfold parseUrl
    rw [hassoc, splitFirst_of_not_mem (by rw [← hassoc]; exact hw)]
    dsimp only
    rw [splitFirst_append_sep hwq]
    dsimp only
    rw [splitFirst_append_sep hs1]
    dsimp only
    rw [if_pos hok]
    show (if (splitFirst '/' (host ++ '/' :: p)).1.isEmpty = true then none
        else some (⟨scheme, (splitFirst '/' (host ++ '/' :: p)).1,
          (match (splitFirst '/' (host ++ '/' :: p)).2 with
           | some q => '/' :: q
           | none => ['/']),
          parseParams (serializeParams params), []⟩ : UrlModel)) =
      some (⟨scheme, host, '/' :: p, params, []⟩ : UrlModel)
    rw [splitFirst_append_sep hhost1]
    rw [if_neg (by simp [hie])]
    rw [parseParams_serializeParams hpe (fun kv hkv =>
      ⟨(hparams kv hkv).1, (hparams kv hkv).2.1, (hparams kv hkv).2.2.2.1⟩)]

end NetJsonMon

namespace NetJsonMon

/-! ## C6: the idempotence theorem -/

theorem paramLe_total : ∀ a b : List Char × List Char,
    paramLe a b = true ∨ paramLe b a = true :=
  fun a b => lexLe_total a.1 b.1

theorem insertionSortB_paramLe_idem (l : List (List Char × List Char)) :
    insertionSortB paramLe (insertionSortB paramLe l) =
      insertionSortB paramLe l :=
  insertionSortB_of_chain' paramLe (chain'_insertionSortB paramLe paramLe_total l)

theorem normalizeUrlCore_of_parse {s : List Char} {u : UrlModel}
    (h : parseUrl s = some u) :
    normalizeUrlCore s =
      (serializeUrl ⟨u.scheme, u.host, normalizePathSegmentsCore u.pathname,
        insertionSortB paramLe u.params, []⟩,
       normalizePathSegmentsCore u.pathname) := by
  unfold normalizeUrlCore
  rw [h]
  dsimp only
  unfold serializeUrl originOf
  simp

theorem normalizeUrlCore_idem (t : List Char) :
    (normalizeUrlCore (normalizeUrlCore t).1).1 = (normalizeUrlCore t).1 := by
  rcases hp : parseUrl t with _ | u
  · have h1 : normalizeUrlCore t = (t, t) := by
      unfold normalizeUrlCore
      rw [hp]
    rw [h1]
    dsimp only
    rw [h1]
  · obtain ⟨hok, hne, hsl, hq, hh, ⟨pt, hpath, hpq, hph⟩, hparams⟩ :=
      parseUrl_facts hp
    have h1 := normalizeUrlCore_of_parse hp
    obtain ⟨t2, hnp, ht2q, ht2h⟩ := normalizePathSegmentsCore_shape hpq hph
    have hsortedmem : ∀ kv ∈ insertionSortB paramLe u.params,
        '&' ∉ kv.1 ∧ '=' ∉ kv.1 ∧ '#' ∉ kv.1 ∧ '&' ∉ kv.2 ∧ '#' ∉ kv.2 :=
      fun kv hkv =>
        hparams kv ((mem_insertionSortB paramLe kv u.params).mp hkv)
    have h2 : parseUrl (serializeUrl ⟨u.scheme, u.host, '/' :: t2,
        insertionSortB paramLe u.params, []⟩) =
        some ⟨u.scheme, u.host, '/' :: t2,
          insertionSortB paramLe u.params, []⟩ :=
      parseUrl_rebuild hok hne hsl hq hh ht2q ht2h hsortedmem
    have h3 := normalizeUrlCore_of_parse h2
    rw [h1]
    dsimp only
    rw [hpath, hnp, h3]
    dsimp only
    rw [insertionSortB_paramLe_idem]
    rw [show normalizePathSegmentsCore ('/' :: t2) = '/' :: t2 from by
      rw [← hnp, normalizePathSegmentsCore_idem, hnp]]

/-- C6: normalizeUrl is idempotent on every input string (on parse
failure both normalizations return the input; on success the normalized
URL parses back to its own components, whose second normalization
changes nothing), and two parsed URLs that differ only in fragment,
query-parameter order or id-like path segments produce equal endpoint
keys for any method. -/
theorem c6_normalizeUrl_idempotent_and_endpointKey_stable :
    (∀ s : String,
      (normalizeUrl (normalizeUrl s).normalizedUrl).normalizedUrl =
        (normalizeUrl s).normalizedUrl) ∧
    (∀ (m s1 s2 : String) (u1 u2 : UrlModel),
      parseUrl s1.data = some u1 → parseUrl s2.data = some u2 →
      u1.scheme = u2.scheme → u1.host = u2.host →
      List.Forall₂ (fun a b => a = b ∨
          (isIdSegment a = true ∧ isIdSegment b = true))
        (splitChar '/' u1.pathname) (splitChar '/' u2.pathname) →
      endpointKey m (normalizeUrl s1).normalizedPath =
        endpointKey m (normalizeUrl s2).normalizedPath) := by
  constructor
  · intro s
    show String.mk (normalizeUrlCore
        (String.mk (normalizeUrlCore s.data).1).data).1 =
      String.mk (normalizeUrlCore s.data).1
    exact congrArg String.mk (normalizeUrlCore_idem s.data)
  · intro m s1 s2 u1 u2 h1 h2 hs hh hf
    have hc1 := normalizeUrlCore_of_parse h1
    have hc2 := normalizeUrlCore_of_parse h2
    have hpeq : normalizePathSegmentsCore u1.pathname =
        normalizePathSegmentsCore u2.pathname := by
      unfold normalizePathSegmentsCore
      congr 1
      generalize splitChar '/' u1.pathname = L1 at hf ⊢
      generalize splitChar '/' u2.pathname = L2 at hf ⊢
      induction hf with
      | nil => rfl
      | cons hrel htail ih =>
        simp only [List.map_cons]
        congr 1
        rcases hrel with he | ⟨hi1, hi2⟩
        · rw [he]
        · rw [if_pos hi1, if_pos hi2]
    show endpointKey m (String.mk (normalizeUrlCore s1.data).2) =
      endpointKey m (String.mk (normalizeUrlCore s2.data).2)
    rw [hc1, hc2]
    dsimp only
    rw [hpeq]

end NetJsonMon

namespace NetJsonMon

set_option maxRecDepth 10000 in
/-- Witness for C6 at concrete URLs: idempotence on a URL with query and
fragment, and equal endpoint keys for two URLs differing only in
fragment, parameter order and a numeric id segment. -/
theorem c6_witness :
    (normalizeUrl (normalizeUrl
        "https://api.example.com/a?x=1#f").normalizedUrl).normalizedUrl =
      (normalizeUrl "https://api.example.com/a?x=1#f").normalizedUrl ∧
    endpointKey "get"
        (normalizeUrl
          "https://api.example.com/users/123?b=2&a=1#frag").normalizedPath =
      endpointKey "get"
        (normalizeUrl
          "https://api.example.com/users/456?a=1&b=2").normalizedPath := by
  constructor
  · exact c6_normalizeUrl_idempotent_and_endpointKey_stable.1 _
  · refine c6_normalizeUrl_idempotent_and_endpointKey_stable.2 "get"
      "https://api.example.com/users/123?b=2&a=1#frag"
      "https://api.example.com/users/456?a=1&b=2"
      ⟨"https".data, "api.example.com".data, "/users/123".data,
        [("b".data, "2".data), ("a".data, "1".data)], "frag".data⟩
      ⟨"https".data, "api.example.com".data, "/users/456".data,
        [("a".data, "1".data), ("b".data, "2".data)], []⟩
      (by decide) (by decide) (by decide) (by decide) ?_
    rw [show splitChar '/' (⟨"https".data, "api.example.com".data,
        "/users/123".data, [("b".data, "2".data), ("a".data, "1".data)],
        "frag".data⟩ : UrlModel).pathname =
      [[], "users".data, "123".data] from by decide]
    rw [show splitChar '/' (⟨"https".data, "api.example.com".data,
        "/users/456".data, [("a".data, "1".data), ("b".data, "2".data)],
        []⟩ : UrlModel).pathname =
      [[], "users".data, "456".data] from by decide]
    exact List.Forall₂.cons (Or.inl rfl)
      (List.Forall₂.cons (Or.inl rfl)
        (List.Forall₂.cons (Or.inr ⟨by decide, by decide⟩)
          List.Forall₂.nil))

end NetJsonMon
